import Mathlib

/-!
Shallow embedding of the DART constraint-impulse solver core:
the pointer-based projected Gauss-Seidel boxed LCP solver, its
Eigen matrix-form sweeps (src/dart/constraint/PgsBoxedLcpSolver.cpp),
and the constraint-group assembly driver
(src/dart/constraint/SequentialImpulseConstraintSolver.cpp).
Doubles are modelled as rationals; the padded flat storage of `A`
(row stride `nskip`) is kept exactly as in the source.
-/

namespace DartLcp

/-- Modelled from the spec: the padding function dPAD lives in the external
odelcpsolver headers, not under src/.  Spec section 3 requires
`pad(n) >= n` and `pad(n)` a multiple of 4. -/
def dPAD (n : Nat) : Nat := 4 * ((n + 3) / 4)

/-- PGS_EPSILON from PgsBoxedLcpSolver.cpp line 42: `#define PGS_EPSILON 10e-9`,
i.e. the rational 10 * 10^(-9) = 1e-8. -/
def PGS_EPSILON : ℚ := 10 / 1000000000

/-- PgsBoxedLcpSolver::canSolve (lines 380-398): false when some diagonal
entry of the padded-stride matrix is below PGS_EPSILON or some pair of
mirrored entries differs by more than PGS_EPSILON. -/
def canSolve (n : Nat) (A : Nat → ℚ) : Bool :=
  let nskip := dPAD n
  (List.range n).all fun i =>
    !decide (A (nskip * i + i) < PGS_EPSILON) &&
    (List.range n).all fun j =>
      !decide (PGS_EPSILON < |A (nskip * i + j) - A (nskip * j + i)|)

/-- Option block of the PGS solver (PgsBoxedLcpSolver.cpp lines 48-61). -/
structure PgsOption where
  mMaxIteration : Nat
  mDeltaXThreshold : ℚ
  mRelativeDeltaXTolerance : ℚ
  mEpsilonForDivision : ℚ
  mRandomizeConstraintOrder : Bool

/-- The Gauss-Seidel numerator of PgsBoxedLcpSolver::solve (lines 109-115
and 187-194): `b[i] - sum_(j<i) A[i,j] x[j] - sum_(i<j<n) A[i,j] x[j]`
over the padded flat matrix. -/
def gsNewX (n nskip : Nat) (A b x : Nat → ℚ) (i : Nat) : ℚ :=
  b i - ((∑ j in Finset.range i, A (nskip * i + j) * x j)
       + ∑ j in Finset.Ico (i + 1) n, A (nskip * i + j) * x j)

/-- The friction-aware projection of PgsBoxedLcpSolver::solve
(lines 119-139 and 196-216). -/
def projectRow (x lo hi : Nat → ℚ) (findex : Nat → Int) (i : Nat)
    (newX : ℚ) : ℚ :=
  if 0 ≤ findex i then
    let hiTmp := hi i * x (findex i).toNat
    let loTmp := -hiTmp
    if hiTmp < newX then hiTmp
    else if newX < loTmp then loTmp
    else newX
  else
    if hi i < newX then hi i
    else if newX < lo i then lo i
    else newX

/-- State threaded through the first sweep of PgsBoxedLcpSolver::solve
(lines 93-148): the impulse vector, mCacheOrder and possibleToTerminate. -/
structure FirstPassState where
  x : Nat → ℚ
  order : List Nat
  possibleToTerminate : Bool

/-- Body of the first sweep of PgsBoxedLcpSolver::solve (lines 94-148) for
row i: a degenerate diagonal zeroes the row and skips it, otherwise the row
enters mCacheOrder, is updated with division by the diagonal, projected, and
tested against the absolute delta-x threshold. -/
def firstPassStep (opt : PgsOption) (n nskip : Nat) (A b lo hi : Nat → ℚ)
    (findex : Nat → Int) (s : FirstPassState) (i : Nat) : FirstPassState :=
  if A (nskip * i + i) < opt.mEpsilonForDivision then
    { x := Function.update s.x i 0
      order := s.order
      possibleToTerminate := s.possibleToTerminate }
  else
    let oldX := s.x i
    let newX := gsNewX n nskip A b s.x i / A (nskip * i + i)
    let xi := projectRow s.x lo hi findex i newX
    { x := Function.update s.x i xi
      order := s.order ++ [i]
      possibleToTerminate :=
        if s.possibleToTerminate then
          if opt.mDeltaXThreshold < |xi - oldX| then false
          else s.possibleToTerminate
        else s.possibleToTerminate }

/-- Prefix of the first sweep: rows 0..m-1 processed. -/
def firstPassAux (opt : PgsOption) (n nskip : Nat) (A b lo hi : Nat → ℚ)
    (findex : Nat → Int) (x0 : Nat → ℚ) (m : Nat) : FirstPassState :=
  (List.range m).foldl (firstPassStep opt n nskip A b lo hi findex)
    { x := x0, order := [], possibleToTerminate := true }

/-- The complete first sweep of PgsBoxedLcpSolver::solve (lines 93-148). -/
def firstPass (opt : PgsOption) (n nskip : Nat) (A b lo hi : Nat → ℚ)
    (findex : Nat → Int) (x0 : Nat → ℚ) : FirstPassState :=
  firstPassAux opt n nskip A b lo hi findex x0 n

/-- Row normalization of PgsBoxedLcpSolver::solve (lines 156-163): divide
b[index] and the first n entries of row index by the diagonal. -/
def normalizeRow (n nskip : Nat) (Ab : (Nat → ℚ) × (Nat → ℚ))
    (index : Nat) : (Nat → ℚ) × (Nat → ℚ) :=
  let dummy := 1 / Ab.1 (nskip * index + index)
  (fun idx =>
     if nskip * index ≤ idx ∧ idx < nskip * index + n then Ab.1 idx * dummy
     else Ab.1 idx,
   Function.update Ab.2 index (Ab.2 index * dummy))

/-- Normalization over the whole cached order (lines 156-163). -/
def normalizeAll (n nskip : Nat) (order : List Nat) (A b : Nat → ℚ) :
    (Nat → ℚ) × (Nat → ℚ) :=
  order.foldl (normalizeRow n nskip) (A, b)

/-- Body of one iterative sweep of PgsBoxedLcpSolver::solve (lines 184-225):
no division by the (normalized) diagonal, friction-aware projection, and the
relative delta-x convergence test guarding possibleToTerminate. -/
def sweepStep (opt : PgsOption) (n nskip : Nat) (A b lo hi : Nat → ℚ)
    (findex : Nat → Int) (s : (Nat → ℚ) × Bool) (index : Nat) :
    (Nat → ℚ) × Bool :=
  let oldX := s.1 index
  let newX := gsNewX n nskip A b s.1 index
  let xi := projectRow s.1 lo hi findex index newX
  (Function.update s.1 index xi,
   if s.2 = true ∧ opt.mEpsilonForDivision < |xi| then
     if opt.mRelativeDeltaXTolerance < |(xi - oldX) / xi| then false else s.2
   else s.2)

/-- One iterative sweep over a cached order, from an arbitrary carried
state (lines 181-225). -/
def sweepFrom (opt : PgsOption) (n nskip : Nat) (A b lo hi : Nat → ℚ)
    (findex : Nat → Int) (order : List Nat) (s : (Nat → ℚ) × Bool) :
    (Nat → ℚ) × Bool :=
  order.foldl (sweepStep opt n nskip A b lo hi findex) s

/-- The in-place swap of mCacheOrder entries i and swapi
(lines 173-176). -/
def swapAt (l : List Nat) (i j : Nat) : List Nat :=
  (l.set i (l.getD j 0)).set j (l.getD i 0)

/-- The Fisher-Yates style reshuffle of mCacheOrder (lines 171-177);
dRandInt is external ODE code not under src/, modelled from the spec
(section 9: an unspecified engine-global RNG) as an arbitrary function
taken mod (i + 1) so that `swapi = dRandInt(i+1)` lies in [0, i]. -/
def shuffle (rng : Nat → Nat) (l : List Nat) : List Nat :=
  ((List.range l.length).drop 1).foldl
    (fun acc i => swapAt acc i (rng i % (i + 1))) l

/-- The iteration loop of PgsBoxedLcpSolver::solve (lines 165-229):
iter runs from 1 while iter < mMaxIteration; every 8th iteration reshuffles
the order when mRandomizeConstraintOrder is set; the loop breaks as soon as
a sweep leaves possibleToTerminate set.  fuel is the number of remaining
iterations. -/
def iterLoop (opt : PgsOption) (rng : Nat → Nat → Nat) (n nskip : Nat)
    (A b lo hi : Nat → ℚ) (findex : Nat → Int) :
    Nat → Nat → List Nat → (Nat → ℚ) → List Nat × (Nat → ℚ)
  | 0, _, order, x => (order, x)
  | fuel + 1, iter, order, x =>
    let order' :=
      if opt.mRandomizeConstraintOrder = true ∧ iter % 8 = 0 then
        shuffle (rng iter) order
      else order
    let sx := sweepFrom opt n nskip A b lo hi findex order' (x, true)
    if sx.2 then (order', sx.1)
    else iterLoop opt rng n nskip A b lo hi findex fuel (iter + 1) order' sx.1

/-- Cramer-rule solution of the leading n x n block of the padded flat
matrix against b. -/
def cramerSolve (n nskip : Nat) (A b : Nat → ℚ) : Fin n → ℚ :=
  let M : Matrix (Fin n) (Fin n) ℚ :=
    Matrix.of fun i j : Fin n => A (nskip * i.val + j.val)
  fun i => (M.det)⁻¹ * (M.adjugate.mulVec fun j : Fin n => b j.val) i

/-- Modelled from the spec: dSolveLDLT (dart/external/odelcpsolver, not
under src/).  Spec section 4.2: when all variables are unbounded the system
`A x = b` is solved exactly through the LDL-transpose factorization and the
solution is left in b; modelled as the exact solution of the linear system
on indices below n. -/
def dSolveLDLT_model (n nskip : Nat) (A b : Nat → ℚ) : Nat → ℚ :=
  fun i => if h : i < n then cramerSolve n nskip A b ⟨i, h⟩ else b i

/-- Update of a curried two-index table at one entry. -/
def updF2 (f : Nat → Nat → ℚ) (a b : Nat) (v : ℚ) : Nat → Nat → ℚ :=
  fun p q => if p = a ∧ q = b then v else f p q

/-- Row i of the unit lower-triangular LDL-transpose factor, built left to
right from the rows already computed. -/
def ldltRow (M : Nat → Nat → ℚ) (d : Nat → ℚ) (i : Nat)
    (L : Nat → Nat → ℚ) : Nat → Nat → ℚ :=
  (List.range i).foldl
    (fun L j =>
      updF2 L i j
        ((M i j - ∑ k in Finset.range j, L i k * L j k * d k) / d j)) L

/-- Leading m rows of the LDL-transpose factorization (standard
recurrence). -/
def ldltAux (M : Nat → Nat → ℚ) : Nat → (Nat → Nat → ℚ) × (Nat → ℚ)
  | 0 => (fun _ _ => 0, fun _ => 0)
  | i + 1 =>
    let Ld := ldltAux M i
    let L := ldltRow M Ld.2 i Ld.1
    (L, Function.update Ld.2 i
          (M i i - ∑ k in Finset.range i, L i k * L i k * Ld.2 k))

/-- Modelled from the spec: dFactorLDLT (dart/external/odelcpsolver, not
under src/).  Spec section 4.2 says only that on return A holds the
factored form of the leading n x n block; modelled by the standard
LDL-transpose recurrence, with L stored strictly below the diagonal and D
on the diagonal of the padded flat matrix. -/
def dFactorLDLT_model (n nskip : Nat) (A : Nat → ℚ) : Nat → ℚ :=
  let M := fun i j => A (nskip * i + j)
  let Ld := ldltAux M n
  fun idx =>
    let i := idx / nskip
    let j := idx % nskip
    if i < n ∧ j < n ∧ idx = nskip * i + j then
      if j < i then Ld.1 i j
      else if j = i then Ld.2 i
      else A idx
    else A idx

/-- The in-out arrays of the pointer-based
PgsBoxedLcpSolver::solve(n, A, x, b, nub, lo, hi, findex). -/
structure PgsIn where
  A : Nat → ℚ
  x : Nat → ℚ
  b : Nat → ℚ
  lo : Nat → ℚ
  hi : Nat → ℚ
  findex : Nat → Int

/-- The arrays on return from the pointer-based solve, together with the
final contents of mCacheOrder (meaningful on the iterative path; the
nub >= n fast path returns before mCacheOrder is touched and is modelled
with an empty order). -/
structure PgsOut where
  A : Nat → ℚ
  x : Nat → ℚ
  b : Nat → ℚ
  lo : Nat → ℚ
  hi : Nat → ℚ
  findex : Nat → Int
  order : List Nat

namespace PgsBoxedLcpSolver

/-- PgsBoxedLcpSolver::solve, pointer form (PgsBoxedLcpSolver.cpp lines
64-234).  nub >= n takes the direct LDL-transpose path (lines 78-88);
otherwise the first sweep with order filtering runs (lines 93-148), an
early return fires when every updated row moved by at most
mDeltaXThreshold (lines 150-154), else rows in the cached order are
normalized (lines 156-163) and the iteration loop runs (lines 165-229). -/
def solve (opt : PgsOption) (rng : Nat → Nat → Nat) (n nub : Nat)
    (io : PgsIn) : PgsOut :=
  let nskip := dPAD n
  if n ≤ nub then
    let bOut := dSolveLDLT_model n nskip io.A io.b
    { A := dFactorLDLT_model n nskip io.A
      x := fun i => if i < n then bOut i else io.x i
      b := bOut
      lo := io.lo, hi := io.hi, findex := io.findex
      order := [] }
  else
    let fp := firstPass opt n nskip io.A io.b io.lo io.hi io.findex io.x
    if fp.possibleToTerminate then
      { A := io.A, x := fp.x, b := io.b
        lo := io.lo, hi := io.hi, findex := io.findex
        order := fp.order }
    else
      let Ab := normalizeAll n nskip fp.order io.A io.b
      let ox := iterLoop opt rng n nskip Ab.1 Ab.2 io.lo io.hi io.findex
                  (opt.mMaxIteration - 1) 1 fp.order fp.x
      { A := Ab.1, x := ox.2, b := Ab.2
        lo := io.lo, hi := io.hi, findex := io.findex
        order := ox.1 }

/-- Strictly upper triangular part of A times x, row i
(the Eigen expression `A.triangularView<StrictlyUpper>() * x`). -/
def strictUpperMulAt (n : Nat) (A : Nat → Nat → ℚ) (x : Nat → ℚ)
    (i : Nat) : ℚ :=
  ∑ j in Finset.Ico (i + 1) n, A i j * x j

/-- Entry i j of the lower-triangular-including-diagonal part of A
(the Eigen view `A.triangularView<Lower>()`). -/
def lowerTriEntry (A : Nat → Nat → ℚ) (i j : Nat) : ℚ :=
  if j ≤ i then A i j else 0

/-- Forward substitution solving the lower-triangular-with-diagonal system
one row at a time; the list holds the first m solution entries. -/
def fsubList (A : Nat → Nat → ℚ) (z : Nat → ℚ) : Nat → List ℚ
  | 0 => []
  | m + 1 =>
    let ys := fsubList A z m
    ys ++ [(z m - ∑ j in Finset.range m, A m j * ys.getD j 0) / A m m]

/-- PgsBoxedLcpSolver::sweepForward (lines 473-479): mCacheZ is set to
-b minus the strictly upper part times x, then x is overwritten with the
lower-triangular solve of mCacheZ. -/
def sweepForward (n : Nat) (A : Nat → Nat → ℚ) (x b : Nat → ℚ) :
    Nat → ℚ :=
  let z := fun i => -b i - strictUpperMulAt n A x i
  let ys := fsubList A z n
  fun i => if i < n then ys.getD i 0 else x i

end PgsBoxedLcpSolver

/-- Abstract constraint object as seen by
SequentialImpulseConstraintSolver::solveConstrainedGroup: its dimension and
the values its getInformation callback writes into the x, lo, hi, b, w and
local findex slices it owns (ConstraintBase is outside src/; the callback
is modelled as filling every entry of its slices). -/
structure ConstraintM where
  dim : Nat
  xFill : Nat → ℚ
  loFill : Nat → ℚ
  hiFill : Nat → ℚ
  bFill : Nat → ℚ
  wFill : Nat → ℚ
  findexFill : Nat → Int

/-- A default constraint used only to totalize list indexing. -/
def cDefault : ConstraintM :=
  { dim := 0, xFill := fun _ => 0, loFill := fun _ => 0
    hiFill := fun _ => 0, bFill := fun _ => 0, wFill := fun _ => 0
    findexFill := fun _ => -1 }

/-- Observable calls solveConstrainedGroup makes on its constraints. -/
inductive GEvent where
  | getInfo (i : Nat)
  | excite (i : Nat)
  | unexcite (i : Nat)
  | unitImpulse (i j : Nat)
  | solveCall
  | applyImpulse (i : Nat)
  deriving DecidableEq

/-- Starting global index of constraint i within the group arrays
(SequentialImpulseConstraintSolver.cpp lines 110-120). -/
def offsetOf (cs : List ConstraintM) (i : Nat) : Nat :=
  ((cs.take i).map (fun c => c.dim)).sum

/-- Dimension of constraint i of the group. -/
def dimOf (cs : List ConstraintM) (i : Nat) : Nat := (cs.getD i cDefault).dim

/-- Total dimension of the group (group.getTotalDimension()). -/
def totalDim (cs : List ConstraintM) : Nat :=
  (cs.map (fun c => c.dim)).sum

/-- Overwrite of the slice [o, o + len) of an array by a local fill. -/
def writeSlice (f : Nat → ℚ) (o len : Nat) (g : Nat → ℚ) : Nat → ℚ :=
  fun idx => if o ≤ idx ∧ idx < o + len then g (idx - o) else f idx

/-- Assembly state: the group arrays and the trace of constraint calls. -/
structure AsmState where
  A : Nat → ℚ
  x : Nat → ℚ
  lo : Nat → ℚ
  hi : Nat → ℚ
  b : Nat → ℚ
  w : Nat → ℚ
  findex : Nat → Int
  trace : List GEvent

/-- The writes into row offsetOf i + j of A made after applyUnitImpulse(j)
(SequentialImpulseConstraintSolver.cpp lines 150-169): the diagonal block
with bias, peer blocks k > i without bias, and the mirror of earlier
columns k < i from the upper triangle.  vel abstracts
getVelocityChange: vel exciter probe reader withBias localRow. -/
def probeWrites (cs : List ConstraintM) (nskip : Nat)
    (vel : Nat → Nat → Nat → Bool → Nat → ℚ) (i j : Nat)
    (A : Nat → ℚ) : Nat → ℚ :=
  let row := nskip * (offsetOf cs i + j)
  let withDiag :=
    (List.range (dimOf cs i)).foldl
      (fun A l => Function.update A (row + offsetOf cs i + l)
        (vel i j i true l)) A
  let withPeers :=
    (List.range cs.length).foldl
      (fun A k =>
        if i < k then
          (List.range (dimOf cs k)).foldl
            (fun A l => Function.update A (row + offsetOf cs k + l)
              (vel i j k false l)) A
        else A) withDiag
  (List.range i).foldl
    (fun A k =>
      (List.range (dimOf cs k)).foldl
        (fun A l => Function.update A (row + offsetOf cs k + l)
          (A (nskip * (offsetOf cs k + l) + offsetOf cs i + j))) A)
    withPeers

/-- One unit-impulse probe of constraint i along direction j
(SequentialImpulseConstraintSolver.cpp lines 147-169): applyUnitImpulse
followed by the velocity-change writes into row offsetOf i + j of A. -/
def probeStep (cs : List ConstraintM) (nskip : Nat)
    (vel : Nat → Nat → Nat → Bool → Nat → ℚ) (i : Nat) (s : AsmState)
    (j : Nat) : AsmState :=
  { s with
    A := probeWrites cs nskip vel i j s.A
    trace := s.trace ++ [GEvent.unitImpulse i j] }

/-- Processing of constraint i in the assembly loop
(SequentialImpulseConstraintSolver.cpp lines 125-177): getInformation fills
the slices (with the local findex shifted by the offset when
non-negative, lines 143-145), then excite, the unit-impulse probes, and
unexcite. -/
def asmConstraint (cs : List ConstraintM) (nskip : Nat)
    (vel : Nat → Nat → Nat → Bool → Nat → ℚ) (s : AsmState) (i : Nat) :
    AsmState :=
  let c := cs.getD i cDefault
  let o := offsetOf cs i
  let s1 : AsmState :=
    { s with
      x := writeSlice s.x o c.dim c.xFill
      lo := writeSlice s.lo o c.dim c.loFill
      hi := writeSlice s.hi o c.dim c.hiFill
      b := writeSlice s.b o c.dim c.bFill
      w := writeSlice s.w o c.dim c.wFill
      findex := fun idx =>
        if o ≤ idx ∧ idx < o + c.dim then
          let v := c.findexFill (idx - o)
          if 0 ≤ v then v + o else v
        else s.findex idx
      trace := s.trace ++ [GEvent.getInfo i, GEvent.excite i] }
  let s2 : AsmState :=
    (List.range c.dim).foldl (probeStep cs nskip vel i) s1
  { s2 with trace := s2.trace ++ [GEvent.unexcite i] }

/-- The whole assembly loop over the group's constraints. -/
def assemble (cs : List ConstraintM) (nskip : Nat)
    (vel : Nat → Nat → Nat → Bool → Nat → ℚ) (s0 : AsmState) : AsmState :=
  (List.range cs.length).foldl (asmConstraint cs nskip vel) s0

/-- Result of one solveConstrainedGroup call: the call trace, the group
dimension, the arrays as passed to the boxed LCP solver, and the solved
impulse vector. -/
structure GroupRun where
  trace : List GEvent
  n : Nat
  xAtSolve : Nat → ℚ
  loAtSolve : Nat → ℚ
  hiAtSolve : Nat → ℚ
  bAtSolve : Nat → ℚ
  findexAtSolve : Nat → Int
  xFinal : Nat → ℚ

/-- SequentialImpulseConstraintSolver::solveConstrainedGroup (lines
83-212).  A zero total dimension returns immediately; otherwise w is
zeroed and findex set to -1 over the first n entries, the constraints are
assembled, the installed boxed solver is invoked on (n, A, x, b, 0, lo,
hi, findex), and each constraint receives applyImpulse followed by excite.
The freshly allocated arrays start as the arbitrary uninitialized contents
A0, x0, b0, lo0, hi0; solver abstracts mBoxedLcpSolver->solve returning
the impulse vector it writes. -/
def solveConstrainedGroup
    (solver : Nat → (Nat → ℚ) → (Nat → ℚ) → (Nat → ℚ) → (Nat → ℚ) →
      (Nat → ℚ) → (Nat → Int) → (Nat → ℚ))
    (vel : Nat → Nat → Nat → Bool → Nat → ℚ) (cs : List ConstraintM)
    (A0 x0 b0 w0 lo0 hi0 : Nat → ℚ) (findex0 : Nat → Int) : GroupRun :=
  let n := totalDim cs
  if n = 0 then
    { trace := [], n := 0, xAtSolve := x0, loAtSolve := lo0
      hiAtSolve := hi0, bAtSolve := b0, findexAtSolve := findex0
      xFinal := x0 }
  else
    let nskip := dPAD n
    let s0 : AsmState :=
      { A := A0, x := x0, lo := lo0, hi := hi0, b := b0
        w := fun i => if i < n then 0 else w0 i
        findex := fun i => if i < n then -1 else findex0 i
        trace := [] }
    let s := assemble cs nskip vel s0
    let xSolved := solver n s.A s.x s.b s.lo s.hi s.findex
    let applyTrace :=
      (List.range cs.length).foldl
        (fun t i => t ++ [GEvent.applyImpulse i, GEvent.excite i]) []
    { trace := s.trace ++ [GEvent.solveCall] ++ applyTrace
      n := n
      xAtSolve := s.x, loAtSolve := s.lo, hiAtSolve := s.hi
      bAtSolve := s.b, findexAtSolve := s.findex
      xFinal := xSolved }

/-- Events of the trace that touch the activation marker or the probes of
constraint i. -/
def concernsExcitation (i : Nat) (e : GEvent) : Bool :=
  match e with
  | GEvent.excite k => decide (k = i)
  | GEvent.unexcite k => decide (k = i)
  | GEvent.unitImpulse k _ => decide (k = i)
  | GEvent.applyImpulse k => decide (k = i)
  | _ => false

/-- Activation marker of constraint i after a trace, from a starting
marker s (excite sets it, unexcite clears it). -/
def excitedAfter (i : Nat) (t : List GEvent) (s : Bool) : Bool :=
  t.foldl
    (fun st e =>
      match e with
      | GEvent.excite k => if k = i then true else st
      | GEvent.unexcite k => if k = i then false else st
      | _ => st) s

/-- The spec's documented default options (section 6): maxIteration 30,
deltaXThreshold 1e-6, relativeDeltaXTolerance 1e-3, epsilonForDivision
1e-9, randomized order. -/
def optDefault : PgsOption :=
  { mMaxIteration := 30
    mDeltaXThreshold := 1 / 1000000
    mRelativeDeltaXTolerance := 1 / 1000
    mEpsilonForDivision := 1 / 1000000000
    mRandomizeConstraintOrder := true }

/-- Default options with constraint-order randomization turned off. -/
def optNoRand : PgsOption :=
  { optDefault with mRandomizeConstraintOrder := false }

/-- A concrete stand-in for the external RNG. -/
def rng0 : Nat → Nat → Nat := fun _ _ => 0

/-- Scenario S6 of the spec: A = [[0,0],[0,2]], b = [7,4], wide bounds, no
friction coupling, zero initial impulse (flat padded storage,
nskip = dPAD 2 = 4). -/
def ioS6 : PgsIn :=
  { A := fun idx => if idx = 5 then 2 else 0
    x := fun _ => 0
    b := fun i => if i = 0 then 7 else if i = 1 then 4 else 0
    lo := fun _ => -1000
    hi := fun _ => 1000
    findex := fun _ => -1 }

/-- Concrete friction instance with the friction row first: n = 2, A = I,
findex = [1, -1], hi = [1/2, 1000], b = [1, 2 - 1e-6], initial
x = [1, 2]. -/
def ioFricRev : PgsIn :=
  { A := fun idx => if idx = 0 then 1 else if idx = 5 then 1 else 0
    x := fun i => if i = 0 then 1 else if i = 1 then 2 else 0
    b := fun i => if i = 0 then 1 else if i = 1 then 1999999 / 1000000 else 0
    lo := fun _ => -1000
    hi := fun i => if i = 0 then 1 / 2 else 1000
    findex := fun i => if i = 0 then 1 else -1 }

/-- Concrete friction instance with the normal row first: n = 2, A = I,
findex = [-1, 0], hi = [10, 1/2], b = [4, 1], zero initial impulse. -/
def ioFricFwd : PgsIn :=
  { A := fun idx => if idx = 0 then 1 else if idx = 5 then 1 else 0
    x := fun _ => 0
    b := fun i => if i = 0 then 4 else if i = 1 then 1 else 0
    lo := fun _ => -1000
    hi := fun i => if i = 0 then 10 else 1 / 2
    findex := fun i => if i = 1 then 0 else -1 }

/-- Degenerate 1 x 1 instance whose box excludes zero: A = [[0]],
lo = [1], hi = [2]. -/
def ioDegBox : PgsIn :=
  { A := fun _ => 0, x := fun _ => 3 / 2, b := fun _ => 5
    lo := fun _ => 1, hi := fun _ => 2, findex := fun _ => -1 }

/-- Bounded 1 x 1 instance: A = [[2]], b = [10], box [0, 1]. -/
def ioBox1 : PgsIn :=
  { A := fun _ => 2, x := fun _ => 0, b := fun _ => 10
    lo := fun _ => 0, hi := fun _ => 1, findex := fun _ => -1 }

/-- Degenerate 1 x 1 instance with a nonzero incoming iterate x = [7]. -/
def ioDeg7 : PgsIn :=
  { A := fun _ => 0, x := fun _ => 7, b := fun _ => 5
    lo := fun _ => -1000, hi := fun _ => 1000, findex := fun _ => -1 }

/-- Converged 1 x 1 instance: A = [[2]], b = [4], incoming x = [2]. -/
def ioConv1 : PgsIn :=
  { A := fun _ => 2, x := fun _ => 2, b := fun _ => 4
    lo := fun _ => -1000, hi := fun _ => 1000, findex := fun _ => -1 }

/-- Unbounded 1 x 1 instance for the fast path: A = [[2]], b = [4]. -/
def ioFast1 : PgsIn :=
  { A := fun _ => 2, x := fun _ => 0, b := fun _ => 4
    lo := fun _ => 0, hi := fun _ => 0, findex := fun _ => -1 }

/-- A one-dimensional constraint whose getInformation callback writes 5
into its x slice. -/
def cFix : ConstraintM :=
  { dim := 1, xFill := fun _ => 5, loFill := fun _ => -1
    hiFill := fun _ => 1, bFill := fun _ => 2, wFill := fun _ => 0
    findexFill := fun _ => -1 }

/-- A boxed solver stand-in that returns the incoming x unchanged. -/
def solverKeepsX : Nat → (Nat → ℚ) → (Nat → ℚ) → (Nat → ℚ) → (Nat → ℚ) →
    (Nat → ℚ) → (Nat → Int) → (Nat → ℚ) :=
  fun _ _ x _ _ _ _ => x

/-- A velocity-response stand-in returning zero. -/
def velZero : Nat → Nat → Nat → Bool → Nat → ℚ := fun _ _ _ _ _ => 0

/-- A concrete group run over the single constraint cFix, with
zero-initialized backing memory. -/
def groupRunFix : GroupRun :=
  solveConstrainedGroup solverKeepsX velZero [cFix]
    (fun _ => 0) (fun _ => 0) (fun _ => 0) (fun _ => 0) (fun _ => 0)
    (fun _ => 0) (fun _ => -1)

theorem le_dPAD (n : Nat) : n ≤ dPAD n := by
  unfold dPAD
  omega

theorem fsubList_length (A : Nat → Nat → ℚ) (z : Nat → ℚ) (m : Nat) :
    (PgsBoxedLcpSolver.fsubList A z m).length = m := by
  induction m with
  | zero => rfl
  | succ k ih => simp [PgsBoxedLcpSolver.fsubList, ih]

theorem fsubList_getD_stable (A : Nat → Nat → ℚ) (z : Nat → ℚ)
    {m m' : Nat} (h : m ≤ m') {i : Nat} (hi : i < m) :
    (PgsBoxedLcpSolver.fsubList A z m').getD i 0
      = (PgsBoxedLcpSolver.fsubList A z m).getD i 0 := by
  induction m' with
  | zero => omega
  | succ k ih =>
    rcases Nat.lt_or_ge m (k + 1) with hl | hg
    · have hmk : m ≤ k := by omega
      rw [show PgsBoxedLcpSolver.fsubList A z (k + 1)
          = PgsBoxedLcpSolver.fsubList A z k ++
            [(z k - ∑ j in Finset.range k,
              A k j * (PgsBoxedLcpSolver.fsubList A z k).getD j 0) / A k k]
        from rfl]
      rw [List.getD_append _ _ _ _ (by rw [fsubList_length]; omega)]
      exact ih hmk
    · have : m = k + 1 := by omega
      subst this
      rfl

theorem fsubList_row (A : Nat → Nat → ℚ) (z : Nat → ℚ) {m i : Nat}
    (hi : i < m) (hA : A i i ≠ 0) :
    A i i * (PgsBoxedLcpSolver.fsubList A z m).getD i 0
      + ∑ j in Finset.range i,
          A i j * (PgsBoxedLcpSolver.fsubList A z m).getD j 0
      = z i := by
  have hstep : ∀ j < i + 1, (PgsBoxedLcpSolver.fsubList A z m).getD j 0
      = (PgsBoxedLcpSolver.fsubList A z (i + 1)).getD j 0 := by
    intro j hj
    rw [fsubList_getD_stable A z (by omega : i + 1 ≤ m) hj]
  rw [hstep i (by omega)]
  have hsum : ∀ j ∈ Finset.range i,
      A i j * (PgsBoxedLcpSolver.fsubList A z m).getD j 0
      = A i j * (PgsBoxedLcpSolver.fsubList A z i).getD j 0 := by
    intro j hj
    rw [fsubList_getD_stable A z (Nat.le_of_lt hi) (Finset.mem_range.mp hj)]
  rw [Finset.sum_congr rfl hsum]
  have hlast : (PgsBoxedLcpSolver.fsubList A z (i + 1)).getD i 0
      = (z i - ∑ j in Finset.range i,
          A i j * (PgsBoxedLcpSolver.fsubList A z i).getD j 0) / A i i := by
    rw [show PgsBoxedLcpSolver.fsubList A z (i + 1)
        = PgsBoxedLcpSolver.fsubList A z i ++
          [(z i - ∑ j in Finset.range i,
            A i j * (PgsBoxedLcpSolver.fsubList A z i).getD j 0) / A i i]
      from rfl]
    rw [List.getD_append_right _ _ _ _ (by rw [fsubList_length])]
    rw [fsubList_length]
    simp
  rw [hlast]
  field_simp

/-- C1 counterexample: at A = [[2]], x_old = [0], b = [3] the code's
sweepForward yields x_new = -3/2, so (L + D) x_new = -3, while the claimed
equation (L + D) x_new = -(U x_old) + b demands +3. -/
theorem sweepForward_sign_counterexample :
    ∑ j in Finset.range 1,
        PgsBoxedLcpSolver.lowerTriEntry (fun _ _ => (2 : ℚ)) 0 j *
          PgsBoxedLcpSolver.sweepForward 1 (fun _ _ => (2 : ℚ))
            (fun _ => 0) (fun _ => 3) j
      ≠ -(PgsBoxedLcpSolver.strictUpperMulAt 1 (fun _ _ => (2 : ℚ))
            (fun _ => 0) 0)
        + (fun _ : Nat => (3 : ℚ)) 0 :=
  of_decide_eq_true (by with_unfolding_all rfl)

/-- C1 amended: for every square A with nonzero diagonal, sweepForward
replaces x with the solution of (L + D) x_new = -(U x_old) - b (the source
seeds mCacheZ with -b, so the right-hand side carries -b, not +b as the
spec sentence states). -/
theorem sweepForward_sweep_equation (n : Nat) (A : Nat → Nat → ℚ)
    (x b : Nat → ℚ) (hA : ∀ i < n, A i i ≠ 0) :
    ∀ i < n,
      ∑ j in Finset.range n,
          PgsBoxedLcpSolver.lowerTriEntry A i j *
            PgsBoxedLcpSolver.sweepForward n A x b j
        = -(PgsBoxedLcpSolver.strictUpperMulAt n A x i) - b i := by
  intro i hi
  have hval : ∀ j < n, PgsBoxedLcpSolver.sweepForward n A x b j
      = (PgsBoxedLcpSolver.fsubList A
          (fun k => -b k - PgsBoxedLcpSolver.strictUpperMulAt n A x k) n).getD
          j 0 := by
    intro j hj
    simp [PgsBoxedLcpSolver.sweepForward, hj]
  have hsub : Finset.range (i + 1) ⊆ Finset.range n :=
    Finset.range_subset.mpr (by omega)
  have hz : ∀ j ∈ Finset.range n, j ∉ Finset.range (i + 1) →
      PgsBoxedLcpSolver.lowerTriEntry A i j *
        PgsBoxedLcpSolver.sweepForward n A x b j = 0 := by
    intro j hj hnj
    rw [Finset.mem_range] at hj
    have hij : ¬ j ≤ i := by
      intro hle
      exact hnj (Finset.mem_range.mpr (by omega))
    unfold PgsBoxedLcpSolver.lowerTriEntry
    rw [if_neg hij, zero_mul]
  have hcg : ∀ j ∈ Finset.range (i + 1),
      PgsBoxedLcpSolver.lowerTriEntry A i j *
        PgsBoxedLcpSolver.sweepForward n A x b j
      = A i j * PgsBoxedLcpSolver.sweepForward n A x b j := by
    intro j hj
    rw [Finset.mem_range] at hj
    unfold PgsBoxedLcpSolver.lowerTriEntry
    rw [if_pos (by omega)]
  have hnarrow : ∑ j in Finset.range n,
      PgsBoxedLcpSolver.lowerTriEntry A i j *
        PgsBoxedLcpSolver.sweepForward n A x b j
      = ∑ j in Finset.range (i + 1),
          A i j * PgsBoxedLcpSolver.sweepForward n A x b j := by
    rw [← Finset.sum_subset hsub hz]
    exact Finset.sum_congr rfl hcg
  rw [hnarrow, Finset.sum_range_succ]
  rw [hval i hi]
  have hsum : ∀ j ∈ Finset.range i,
      A i j * PgsBoxedLcpSolver.sweepForward n A x b j
      = A i j * (PgsBoxedLcpSolver.fsubList A
          (fun k => -b k - PgsBoxedLcpSolver.strictUpperMulAt n A x k) n).getD
          j 0 := by
    intro j hj
    rw [hval j (by have := Finset.mem_range.mp hj; omega)]
  rw [Finset.sum_congr rfl hsum]
  have hrow := fsubList_row A
    (fun k => -b k - PgsBoxedLcpSolver.strictUpperMulAt n A x k) hi
    (hA i hi)
  simp only [] at hrow
  linarith [hrow]

/-- Witness for the amended C1 theorem at the 1 x 1 instance A = [[2]],
x = [0], b = [3]. -/
theorem sweepForward_sweep_equation_witness :
    ∑ j in Finset.range 1,
        PgsBoxedLcpSolver.lowerTriEntry (fun _ _ => (2 : ℚ)) 0 j *
          PgsBoxedLcpSolver.sweepForward 1 (fun _ _ => (2 : ℚ))
            (fun _ => 0) (fun _ => 3) j
      = -(PgsBoxedLcpSolver.strictUpperMulAt 1 (fun _ _ => (2 : ℚ))
            (fun _ => 0) 0)
        - (fun _ : Nat => (3 : ℚ)) 0 :=
  sweepForward_sweep_equation 1 (fun _ _ => (2 : ℚ)) (fun _ => 0)
    (fun _ => 3) (fun i _ => by norm_num) 0 (by norm_num)

/-- C7 amended: canSolve n A is false exactly when some diagonal entry of
the padded-stride matrix is below PGS_EPSILON = 10e-9 = 1e-8 or some
mirrored pair differs by more than PGS_EPSILON; the spec's epsilon of
about 1e-9 misreads the source constant 10e-9. -/
theorem canSolve_true_iff (n : Nat) (A : Nat → ℚ) :
    canSolve n A = true ↔
      ∀ i < n, PGS_EPSILON ≤ A (dPAD n * i + i) ∧
        ∀ j < n, |A (dPAD n * i + j) - A (dPAD n * j + i)| ≤ PGS_EPSILON := by
  simp only [canSolve, List.all_eq_true, List.mem_range, Bool.and_eq_true,
    Bool.not_eq_true', decide_eq_false_iff_not, not_lt]

theorem canSolve_false_iff (n : Nat) (A : Nat → ℚ) :
    canSolve n A = false ↔
      ∃ i, i < n ∧ (A (dPAD n * i + i) < PGS_EPSILON ∨
        ∃ j, j < n ∧
          PGS_EPSILON < |A (dPAD n * i + j) - A (dPAD n * j + i)|) := by
  rw [← Bool.not_eq_true, canSolve_true_iff]
  push_neg
  constructor
  · rintro ⟨i, hin, himp⟩
    rcases lt_or_le (A (dPAD n * i + i)) PGS_EPSILON with hd | hd
    · exact ⟨i, hin, Or.inl hd⟩
    · exact ⟨i, hin, Or.inr (himp hd)⟩
  · rintro ⟨i, hin, hd | hex⟩
    · exact ⟨i, hin, fun hge => absurd hd (not_lt.mpr hge)⟩
    · exact ⟨i, hin, fun _ => hex⟩

/-- C7 counterexample: on the 1 x 1 matrix [2e-9] canSolve returns false,
yet the matrix is exactly symmetric and its diagonal is not below the
claimed epsilon of 1e-9: the source constant PGS_EPSILON is 10e-9 = 1e-8,
ten times the value the claim states. -/
theorem canSolve_epsilon_counterexample :
    canSolve 1 (fun _ => 2 / 1000000000) = false ∧
    ¬ ((fun _ : Nat => (2 : ℚ) / 1000000000) (dPAD 1 * 0 + 0)
        < 1 / 1000000000) ∧
    |(fun _ : Nat => (2 : ℚ) / 1000000000) (dPAD 1 * 0 + 0)
        - (fun _ : Nat => (2 : ℚ) / 1000000000) (dPAD 1 * 0 + 0)|
      ≤ 1 / 1000000000 :=
  of_decide_eq_true (by with_unfolding_all rfl)

/-- C10: the pointer-based solve returns lo, hi and findex unchanged on
every path: the source reads them but never writes them. -/
theorem solve_preserves_lo_hi_findex (opt : PgsOption)
    (rng : Nat → Nat → Nat) (n nub : Nat) (io : PgsIn) :
    (PgsBoxedLcpSolver.solve opt rng n nub io).lo = io.lo ∧
    (PgsBoxedLcpSolver.solve opt rng n nub io).hi = io.hi ∧
    (PgsBoxedLcpSolver.solve opt rng n nub io).findex = io.findex := by
  by_cases h : n ≤ nub
  · simp [PgsBoxedLcpSolver.solve, h]
  · by_cases h2 : (firstPass opt n (dPAD n) io.A io.b io.lo io.hi io.findex
        io.x).possibleToTerminate = true
    · simp [PgsBoxedLcpSolver.solve, h, h2]
    · simp [PgsBoxedLcpSolver.solve, h, h2]

theorem cramerSolve_mulVec (n nskip : Nat) (A b : Nat → ℚ)
    (hdet : (Matrix.of fun i j : Fin n =>
      A (nskip * i.val + j.val)).det ≠ 0) :
    (Matrix.of fun i j : Fin n => A (nskip * i.val + j.val)).mulVec
        (cramerSolve n nskip A b) = fun i : Fin n => b i.val := by
  set M : Matrix (Fin n) (Fin n) ℚ :=
    Matrix.of fun i j : Fin n => A (nskip * i.val + j.val) with hM
  have hsol : cramerSolve n nskip A b
      = (M.det)⁻¹ • (M.adjugate.mulVec fun j : Fin n => b j.val) := by
    funext i
    simp [cramerSolve, hM, Pi.smul_apply, smul_eq_mul]
  rw [hsol, Matrix.mulVec_smul, Matrix.mulVec_mulVec, Matrix.mul_adjugate,
    Matrix.smul_mulVec_assoc, Matrix.one_mulVec, smul_smul,
    inv_mul_cancel₀ hdet, one_smul]

/-- C5: with nub at least n the pointer-based solve takes only the direct
path: x returns equal to the final contents of b, b holds the
LDL-transpose solve of A x = b (modelled from the spec since dSolveLDLT is
external), A holds the factored form, no Gauss-Seidel sweep or projection
runs (the cached order is untouched and the result solves the unprojected
linear system), and lo, hi, findex are never read. -/
theorem solve_fast_path (opt : PgsOption) (rng : Nat → Nat → Nat)
    (n nub : Nat) (io : PgsIn) (h : n ≤ nub) :
    (∀ i < n, (PgsBoxedLcpSolver.solve opt rng n nub io).x i
        = (PgsBoxedLcpSolver.solve opt rng n nub io).b i) ∧
    (PgsBoxedLcpSolver.solve opt rng n nub io).b
        = dSolveLDLT_model n (dPAD n) io.A io.b ∧
    (PgsBoxedLcpSolver.solve opt rng n nub io).A
        = dFactorLDLT_model n (dPAD n) io.A ∧
    (PgsBoxedLcpSolver.solve opt rng n nub io).order = [] ∧
    (∀ lo' hi' : Nat → ℚ, ∀ fi' : Nat → Int,
      (PgsBoxedLcpSolver.solve opt rng n nub
          { A := io.A, x := io.x, b := io.b, lo := lo', hi := hi',
            findex := fi' }).x
        = (PgsBoxedLcpSolver.solve opt rng n nub io).x) ∧
    ((Matrix.of fun i j : Fin n =>
        io.A (dPAD n * i.val + j.val) : Matrix (Fin n) (Fin n) ℚ).det ≠ 0 →
      ∀ i : Fin n,
        ∑ j : Fin n, io.A (dPAD n * i.val + j.val) *
            (PgsBoxedLcpSolver.solve opt rng n nub io).x j.val
          = io.b i.val) := by
  refine ⟨?_, ?_, ?_, ?_, ?_, ?_⟩
  · intro i hi
    simp [PgsBoxedLcpSolver.solve, h, hi]
  · simp [PgsBoxedLcpSolver.solve, h]
  · simp [PgsBoxedLcpSolver.solve, h]
  · simp [PgsBoxedLcpSolver.solve, h]
  · intro lo' hi' fi'
    simp [PgsBoxedLcpSolver.solve, h]
  · intro hdet i
    have hx : ∀ j : Fin n, (PgsBoxedLcpSolver.solve opt rng n nub io).x j.val
        = cramerSolve n (dPAD n) io.A io.b j := by
      intro j
      simp [PgsBoxedLcpSolver.solve, h, dSolveLDLT_model, j.isLt]
    have hmv := congrFun (cramerSolve_mulVec n (dPAD n) io.A io.b hdet) i
    simp only [Matrix.mulVec, Matrix.dotProduct, Matrix.of_apply] at hmv
    calc ∑ j : Fin n, io.A (dPAD n * i.val + j.val) *
            (PgsBoxedLcpSolver.solve opt rng n nub io).x j.val
        = ∑ j : Fin n, io.A (dPAD n * i.val + j.val) *
            cramerSolve n (dPAD n) io.A io.b j := by
          refine Finset.sum_congr rfl ?_
          intro j _
          rw [hx j]
      _ = io.b i.val := hmv

/-- Witness for the C5 theorem at the 1 x 1 unbounded instance
A = [[2]], b = [4]. -/
theorem solve_fast_path_witness :
    (PgsBoxedLcpSolver.solve optDefault rng0 1 1 ioFast1).x 0
      = (PgsBoxedLcpSolver.solve optDefault rng0 1 1 ioFast1).b 0 :=
  (solve_fast_path optDefault rng0 1 1 ioFast1 (by decide)).1 0 (by decide)

theorem projectRow_eq (x lo hi : Nat → ℚ) (findex : Nat → Int) (i : Nat)
    (v : ℚ) :
    projectRow x lo hi findex i v =
      if 0 ≤ findex i then
        if hi i * x (findex i).toNat < v then hi i * x (findex i).toNat
        else if v < -(hi i * x (findex i).toNat) then
          -(hi i * x (findex i).toNat)
        else v
      else
        if hi i < v then hi i
        else if v < lo i then lo i
        else v := rfl

theorem projectRow_box (x lo hi : Nat → ℚ) (findex : Nat → Int) (i : Nat)
    (v : ℚ) (hf : findex i < 0) (hlh : lo i ≤ hi i) :
    lo i ≤ projectRow x lo hi findex i v ∧
      projectRow x lo hi findex i v ≤ hi i := by
  rw [projectRow_eq]
  rw [if_neg (by omega)]
  split_ifs with h1 h2
  · exact ⟨hlh, le_refl _⟩
  · exact ⟨le_refl _, hlh⟩
  · exact ⟨not_lt.mp h2, not_lt.mp h1⟩

theorem projectRow_fric (x lo hi : Nat → ℚ) (findex : Nat → Int) (i : Nat)
    (v : ℚ) (hf : 0 ≤ findex i) (hhi : 0 ≤ hi i) :
    |projectRow x lo hi findex i v| ≤ hi i * |x (findex i).toNat| := by
  rw [projectRow_eq, if_pos hf]
  have habs2 : |hi i * x ((findex i).toNat)| = hi i * |x ((findex i).toNat)| := by
    rw [abs_mul, abs_of_nonneg hhi]
  split_ifs with h1 h2
  · exact le_of_eq habs2
  · rw [abs_neg]
    exact le_of_eq habs2
  · have hub : v ≤ hi i * x ((findex i).toNat) := not_lt.mp h1
    have hlb : -(hi i * x ((findex i).toNat)) ≤ v := not_lt.mp h2
    have h3 : hi i * x ((findex i).toNat) ≤ hi i * |x ((findex i).toNat)| :=
      mul_le_mul_of_nonneg_left (le_abs_self _) hhi
    have h4 : -(hi i * |x ((findex i).toNat)|)
        ≤ -(hi i * x ((findex i).toNat)) := by linarith
    exact abs_le.mpr ⟨by linarith, by linarith⟩

theorem firstPassStep_eq (opt : PgsOption) (n nskip : Nat)
    (A b lo hi : Nat → ℚ) (findex : Nat → Int) (s : FirstPassState)
    (i : Nat) :
    firstPassStep opt n nskip A b lo hi findex s i =
      if A (nskip * i + i) < opt.mEpsilonForDivision then
        { x := Function.update s.x i 0, order := s.order
          possibleToTerminate := s.possibleToTerminate }
      else
        { x := Function.update s.x i
            (projectRow s.x lo hi findex i
              (gsNewX n nskip A b s.x i / A (nskip * i + i)))
          order := s.order ++ [i]
          possibleToTerminate :=
            if s.possibleToTerminate then
              if opt.mDeltaXThreshold <
                  |projectRow s.x lo hi findex i
                      (gsNewX n nskip A b s.x i / A (nskip * i + i))
                    - s.x i| then false
              else s.possibleToTerminate
            else s.possibleToTerminate } := rfl

section FirstPassLemmas

variable (opt : PgsOption) (n nskip : Nat) (A b lo hi : Nat → ℚ)
variable (findex : Nat → Int) (x0 : Nat → ℚ)

theorem firstPassAux_succ (m : Nat) :
    firstPassAux opt n nskip A b lo hi findex x0 (m + 1)
      = firstPassStep opt n nskip A b lo hi findex
          (firstPassAux opt n nskip A b lo hi findex x0 m) m := by
  unfold firstPassAux
  rw [List.range_succ, List.foldl_append]
  rfl

theorem firstPassStep_x_ne (s : FirstPassState) (i j : Nat) (hij : j ≠ i) :
    (firstPassStep opt n nskip A b lo hi findex s i).x j = s.x j := by
  rw [firstPassStep_eq]
  split
  · exact Function.update_noteq hij _ _
  · exact Function.update_noteq hij _ _

theorem firstPassAux_x_stable (m i : Nat) (h : m ≤ i) :
    (firstPassAux opt n nskip A b lo hi findex x0 m).x i = x0 i := by
  induction m with
  | zero => rfl
  | succ k ih =>
    rw [firstPassAux_succ,
      firstPassStep_x_ne opt n nskip A b lo hi findex _ k i (by omega)]
    exact ih (by omega)

theorem firstPassAux_order (m : Nat) :
    (firstPassAux opt n nskip A b lo hi findex x0 m).order
      = (List.range m).filter
          (fun i => !decide (A (nskip * i + i) < opt.mEpsilonForDivision)) := by
  induction m with
  | zero => rfl
  | succ k ih =>
    rw [firstPassAux_succ, List.range_succ, List.filter_append,
      firstPassStep_eq]
    by_cases hd : A (nskip * k + k) < opt.mEpsilonForDivision
    · rw [if_pos hd]
      simp [ih, hd]
    · rw [if_neg hd]
      simp [ih, hd]

theorem firstPassAux_deg_zero (m i : Nat) (hi' : i < m)
    (hdeg : A (nskip * i + i) < opt.mEpsilonForDivision) :
    (firstPassAux opt n nskip A b lo hi findex x0 m).x i = 0 := by
  induction m with
  | zero => omega
  | succ k ih =>
    rw [firstPassAux_succ]
    rcases Nat.lt_or_ge i k with hik | hik
    · rw [firstPassStep_x_ne opt n nskip A b lo hi findex _ k i (by omega)]
      exact ih hik
    · have hieq : i = k := by omega
      subst hieq
      rw [firstPassStep_eq, if_pos hdeg]
      exact Function.update_same i 0 _

theorem firstPassAux_box (m i : Nat) (him : i < m)
    (hdeg : ¬ A (nskip * i + i) < opt.mEpsilonForDivision)
    (hf : findex i < 0) (hlh : lo i ≤ hi i) :
    lo i ≤ (firstPassAux opt n nskip A b lo hi findex x0 m).x i ∧
      (firstPassAux opt n nskip A b lo hi findex x0 m).x i ≤ hi i := by
  induction m with
  | zero => omega
  | succ k ih =>
    rw [firstPassAux_succ]
    rcases Nat.lt_or_ge i k with hik | hik
    · rw [firstPassStep_x_ne opt n nskip A b lo hi findex _ k i (by omega)]
      exact ih hik
    · have hieq : i = k := by omega
      subst hieq
      rw [firstPassStep_eq, if_neg hdeg]
      dsimp only
      rw [Function.update_same]
      exact projectRow_box _ lo hi findex i _ hf hlh

theorem firstPassAux_fric (m i : Nat) (him : i < m) (hf : 0 ≤ findex i)
    (hk : (findex i).toNat < i) (hhi : 0 ≤ hi i) :
    |(firstPassAux opt n nskip A b lo hi findex x0 m).x i|
      ≤ hi i *
        |(firstPassAux opt n nskip A b lo hi findex x0 m).x
          (findex i).toNat| := by
  induction m with
  | zero => omega
  | succ k ih =>
    rw [firstPassAux_succ]
    rcases Nat.lt_or_ge i k with hik | hik
    · rw [firstPassStep_x_ne opt n nskip A b lo hi findex _ k i (by omega),
        firstPassStep_x_ne opt n nskip A b lo hi findex _ k
          (findex i).toNat (by omega)]
      exact ih hik
    · have hieq : i = k := by omega
      subst hieq
      by_cases hdeg : A (nskip * i + i) < opt.mEpsilonForDivision
      · rw [firstPassStep_eq, if_pos hdeg]
        dsimp only
        rw [Function.update_same,
          Function.update_noteq (by omega : (findex i).toNat ≠ i)]
        simp only [abs_zero]
        exact mul_nonneg hhi (abs_nonneg _)
      · rw [firstPassStep_eq, if_neg hdeg]
        dsimp only
        rw [Function.update_same,
          Function.update_noteq (by omega : (findex i).toNat ≠ i)]
        exact projectRow_fric _ lo hi findex i _ hf hhi

theorem firstPassStep_flag_mono (s : FirstPassState) (i : Nat)
    (h : (firstPassStep opt n nskip A b lo hi findex s i).possibleToTerminate
      = true) : s.possibleToTerminate = true := by
  rw [firstPassStep_eq] at h
  cases hs : s.possibleToTerminate
  · rw [hs] at h
    split at h
    · exact h
    · dsimp only at h
      simp at h
  · rfl

theorem firstPassAux_flag_bound (m : Nat)
    (hflag : (firstPassAux opt n nskip A b lo hi findex x0
      m).possibleToTerminate = true)
    (i : Nat) (him : i < m)
    (hdeg : ¬ A (nskip * i + i) < opt.mEpsilonForDivision) :
    |(firstPassAux opt n nskip A b lo hi findex x0 m).x i - x0 i|
      ≤ opt.mDeltaXThreshold := by
  induction m with
  | zero => omega
  | succ k ih =>
    have hflagk : (firstPassAux opt n nskip A b lo hi findex x0
        k).possibleToTerminate = true := by
      rw [firstPassAux_succ] at hflag
      exact firstPassStep_flag_mono opt n nskip A b lo hi findex _ k hflag
    rcases Nat.lt_or_ge i k with hik | hik
    · rw [firstPassAux_succ,
        firstPassStep_x_ne opt n nskip A b lo hi findex _ k i (by omega)]
      exact ih hflagk hik
    · have hieq : i = k := by omega
      subst hieq
      rw [firstPassAux_succ] at hflag ⊢
      rw [firstPassStep_eq, if_neg hdeg] at hflag ⊢
      dsimp only at hflag ⊢
      rw [Function.update_same]
      rw [hflagk] at hflag
      rw [if_pos rfl] at hflag
      have hold : (firstPassAux opt n nskip A b lo hi findex x0 i).x i
          = x0 i :=
        firstPassAux_x_stable opt n nskip A b lo hi findex x0 i i
          (le_refl i)
      rw [hold] at hflag
      by_cases hc : opt.mDeltaXThreshold <
          |projectRow (firstPassAux opt n nskip A b lo hi findex x0 i).x
              lo hi findex i
              (gsNewX n nskip A b
                (firstPassAux opt n nskip A b lo hi findex x0 i).x i
                / A (nskip * i + i)) - x0 i|
      · rw [if_pos hc] at hflag
        exact absurd hflag (by simp)
      · exact not_lt.mp hc

end FirstPassLemmas

theorem sweepStep_eq (opt : PgsOption) (n nskip : Nat)
    (A b lo hi : Nat → ℚ) (findex : Nat → Int) (s : (Nat → ℚ) × Bool)
    (index : Nat) :
    sweepStep opt n nskip A b lo hi findex s index =
      (Function.update s.1 index
        (projectRow s.1 lo hi findex index (gsNewX n nskip A b s.1 index)),
       if s.2 = true ∧ opt.mEpsilonForDivision <
           |projectRow s.1 lo hi findex index
             (gsNewX n nskip A b s.1 index)| then
         if opt.mRelativeDeltaXTolerance <
             |(projectRow s.1 lo hi findex index
                 (gsNewX n nskip A b s.1 index) - s.1 index) /
               projectRow s.1 lo hi findex index
                 (gsNewX n nskip A b s.1 index)| then false
         else s.2
       else s.2) := rfl

section SweepLemmas

variable (opt : PgsOption) (n nskip : Nat) (A b lo hi : Nat → ℚ)
variable (findex : Nat → Int)

theorem sweepFrom_nil (s : (Nat → ℚ) × Bool) :
    sweepFrom opt n nskip A b lo hi findex [] s = s := rfl

theorem sweepFrom_cons (a : Nat) (rest : List Nat) (s : (Nat → ℚ) × Bool) :
    sweepFrom opt n nskip A b lo hi findex (a :: rest) s
      = sweepFrom opt n nskip A b lo hi findex rest
          (sweepStep opt n nskip A b lo hi findex s a) := rfl

theorem sweepStep_x_ne (s : (Nat → ℚ) × Bool) (index j : Nat)
    (hj : j ≠ index) :
    (sweepStep opt n nskip A b lo hi findex s index).1 j = s.1 j := by
  rw [sweepStep_eq]
  exact Function.update_noteq hj _ _

theorem sweepFrom_x_notmem (order : List Nat) (s : (Nat → ℚ) × Bool)
    (j : Nat) (hj : j ∉ order) :
    (sweepFrom opt n nskip A b lo hi findex order s).1 j = s.1 j := by
  induction order generalizing s with
  | nil => rfl
  | cons a rest ih =>
    rw [sweepFrom_cons]
    have hja : j ≠ a := fun h => hj (h ▸ List.mem_cons_self a rest)
    have hjr : j ∉ rest := fun h => hj (List.mem_cons_of_mem a h)
    rw [ih _ hjr]
    exact sweepStep_x_ne opt n nskip A b lo hi findex s a j hja

theorem sweepFrom_box (order : List Nat) :
    ∀ (s : (Nat → ℚ) × Bool) (i : Nat), i ∈ order → findex i < 0 →
      lo i ≤ hi i →
      lo i ≤ (sweepFrom opt n nskip A b lo hi findex order s).1 i ∧
        (sweepFrom opt n nskip A b lo hi findex order s).1 i ≤ hi i := by
  induction order with
  | nil => intro s i hmem; exact absurd hmem (List.not_mem_nil i)
  | cons a rest ih =>
    intro s i hmem hf hlh
    rw [sweepFrom_cons]
    by_cases hr : i ∈ rest
    · exact ih _ i hr hf hlh
    · have hia : i = a := by
        rcases List.mem_cons.mp hmem with h | h
        · exact h
        · exact absurd h hr
      subst hia
      rw [sweepFrom_x_notmem opt n nskip A b lo hi findex rest _ i hr]
      rw [sweepStep_eq]
      dsimp only
      rw [Function.update_same]
      exact projectRow_box _ lo hi findex i _ hf hlh

theorem sweepFrom_fric_sorted (order : List Nat) :
    List.Pairwise (· < ·) order →
    ∀ (s : (Nat → ℚ) × Bool) (i : Nat), i ∈ order → 0 ≤ findex i →
      (findex i).toNat < i → 0 ≤ hi i →
      |(sweepFrom opt n nskip A b lo hi findex order s).1 i|
        ≤ hi i * |(sweepFrom opt n nskip A b lo hi findex order s).1
            ((findex i).toNat)| := by
  induction order with
  | nil => intro _ s i hmem; exact absurd hmem (List.not_mem_nil i)
  | cons a rest ih =>
    intro hpw s i hmem hf hk hhi
    obtain ⟨hagt, hpr⟩ := List.pairwise_cons.mp hpw
    rw [sweepFrom_cons]
    by_cases hr : i ∈ rest
    · exact ih hpr _ i hr hf hk hhi
    · have hia : i = a := by
        rcases List.mem_cons.mp hmem with h | h
        · exact h
        · exact absurd h hr
      subst hia
      have hkr : (findex i).toNat ∉ rest := fun hc =>
        absurd (hagt _ hc) (by omega)
      rw [sweepFrom_x_notmem opt n nskip A b lo hi findex rest _ i hr,
        sweepFrom_x_notmem opt n nskip A b lo hi findex rest _
          ((findex i).toNat) hkr]
      rw [sweepStep_eq]
      dsimp only
      rw [Function.update_same,
        Function.update_noteq (by omega : (findex i).toNat ≠ i)]
      exact projectRow_fric _ lo hi findex i _ hf hhi

end SweepLemmas

theorem swapAt_length (l : List Nat) (i j : Nat) :
    (swapAt l i j).length = l.length := by
  simp [swapAt]

theorem swapAt_mem (l : List Nat) (i j : Nat) (hi : i < l.length)
    (hj : j < l.length) (a : Nat) : a ∈ swapAt l i j ↔ a ∈ l := by
  unfold swapAt
  simp only [List.mem_iff_getElem, List.getElem_set, List.length_set]
  constructor
  · rintro ⟨m, hm, hval⟩
    by_cases hjm : j = m
    · rw [if_pos hjm] at hval
      refine ⟨i, hi, ?_⟩
      rw [← List.getD_eq_getElem l 0 hi]
      exact hval
    · rw [if_neg hjm] at hval
      by_cases him : i = m
      · rw [if_pos him] at hval
        refine ⟨j, hj, ?_⟩
        rw [← List.getD_eq_getElem l 0 hj]
        exact hval
      · rw [if_neg him] at hval
        exact ⟨m, hm, hval⟩
  · rintro ⟨m, hm, hval⟩
    have hvalD : l.getD m 0 = a := by
      rw [List.getD_eq_getElem l 0 hm]
      exact hval
    by_cases him : m = i
    · refine ⟨j, hj, ?_⟩
      rw [if_pos rfl, ← him, hvalD]
    · by_cases hjm : m = j
      · have hji : ¬ (j = i) := fun hc => him (by omega)
        refine ⟨i, hi, ?_⟩
        rw [if_neg hji, if_pos rfl, ← hjm, hvalD]
      · refine ⟨m, hm, ?_⟩
        rw [if_neg (fun hc => hjm (by omega)),
          if_neg (fun hc => him (by omega))]
        exact hval

theorem swapFold_mem (rng' : Nat → Nat) (idxs : List Nat) (L : Nat)
    (hidxs : ∀ i ∈ idxs, i < L) (acc : List Nat) (hacc : acc.length = L) :
    (idxs.foldl (fun acc i => swapAt acc i (rng' i % (i + 1))) acc).length
        = L ∧
    ∀ a, a ∈ idxs.foldl (fun acc i => swapAt acc i (rng' i % (i + 1))) acc
        ↔ a ∈ acc := by
  induction idxs generalizing acc with
  | nil => exact ⟨hacc, fun a => Iff.rfl⟩
  | cons i rest ih =>
    have hiL : i < L := hidxs i (List.mem_cons_self i rest)
    have hjL : rng' i % (i + 1) < L :=
      lt_of_lt_of_le (Nat.mod_lt _ (Nat.succ_pos i)) (by omega)
    have hlen : (swapAt acc i (rng' i % (i + 1))).length = L := by
      rw [swapAt_length]
      exact hacc
    obtain ⟨hl, hm⟩ := ih (fun a ha => hidxs a (List.mem_cons_of_mem i ha))
      (swapAt acc i (rng' i % (i + 1))) hlen
    refine ⟨hl, fun a => (hm a).trans ?_⟩
    exact swapAt_mem acc i (rng' i % (i + 1)) (by omega) (by omega) a

theorem shuffle_mem (rng' : Nat → Nat) (l : List Nat) (a : Nat) :
    a ∈ shuffle rng' l ↔ a ∈ l := by
  unfold shuffle
  exact (swapFold_mem rng' ((List.range l.length).drop 1) l.length
    (fun i hi => List.mem_range.mp (List.mem_of_mem_drop hi)) l rfl).2 a

section IterLoopLemmas

variable (opt : PgsOption) (rng : Nat → Nat → Nat) (n nskip : Nat)
variable (A b lo hi : Nat → ℚ) (findex : Nat → Int)

theorem iterLoop_order_mem :
    ∀ (fuel iter : Nat) (order : List Nat) (x : Nat → ℚ) (a : Nat),
      a ∈ (iterLoop opt rng n nskip A b lo hi findex fuel iter
          order x).1 ↔ a ∈ order := by
  intro fuel
  induction fuel with
  | zero => intro iter order x a; exact Iff.rfl
  | succ f ih =>
    intro iter order x a
    simp only [iterLoop]
    by_cases hc : opt.mRandomizeConstraintOrder = true ∧ iter % 8 = 0
    · rw [if_pos hc]
      cases hsx : (sweepFrom opt n nskip A b lo hi findex
          (shuffle (rng iter) order) (x, true)).2
      · rw [if_neg (show ¬ ((false : Bool) = true) by simp)]
        exact (ih (iter + 1) _ _ a).trans (shuffle_mem _ order a)
      · rw [if_pos (show (true : Bool) = true from rfl)]
        exact shuffle_mem _ order a
    · rw [if_neg hc]
      cases hsx : (sweepFrom opt n nskip A b lo hi findex order
          (x, true)).2
      · rw [if_neg (show ¬ ((false : Bool) = true) by simp)]
        exact ih (iter + 1) _ _ a
      · rw [if_pos (show (true : Bool) = true from rfl)]

theorem iterLoop_x_invariant (P : (Nat → ℚ) → Prop) (order0 : List Nat)
    (hstep : ∀ (ord : List Nat), (∀ a, a ∈ ord ↔ a ∈ order0) →
      ∀ (x : Nat → ℚ), P x →
      P (sweepFrom opt n nskip A b lo hi findex ord (x, true)).1) :
    ∀ (fuel iter : Nat) (order : List Nat) (x : Nat → ℚ),
      (∀ a, a ∈ order ↔ a ∈ order0) → P x →
      P (iterLoop opt rng n nskip A b lo hi findex fuel iter order x).2 := by
  intro fuel
  induction fuel with
  | zero => intro iter order x _ hP; exact hP
  | succ f ih =>
    intro iter order x hmem hP
    simp only [iterLoop]
    by_cases hc : opt.mRandomizeConstraintOrder = true ∧ iter % 8 = 0
    · rw [if_pos hc]
      have hmem' : ∀ a, a ∈ shuffle (rng iter) order ↔ a ∈ order0 :=
        fun a => (shuffle_mem _ order a).trans (hmem a)
      cases hsx : (sweepFrom opt n nskip A b lo hi findex
          (shuffle (rng iter) order) (x, true)).2
      · rw [if_neg (show ¬ ((false : Bool) = true) by simp)]
        exact ih (iter + 1) _ _ hmem' (hstep _ hmem' x hP)
      · rw [if_pos (show (true : Bool) = true from rfl)]
        exact hstep _ hmem' x hP
    · rw [if_neg hc]
      cases hsx : (sweepFrom opt n nskip A b lo hi findex order
          (x, true)).2
      · rw [if_neg (show ¬ ((false : Bool) = true) by simp)]
        exact ih (iter + 1) _ _ hmem (hstep _ hmem x hP)
      · rw [if_pos (show (true : Bool) = true from rfl)]
        exact hstep _ hmem x hP

theorem iterLoop_norand_x_invariant
    (hR : opt.mRandomizeConstraintOrder = false)
    (P : (Nat → ℚ) → Prop) (order : List Nat)
    (hstep : ∀ (x : Nat → ℚ), P x →
      P (sweepFrom opt n nskip A b lo hi findex order (x, true)).1) :
    ∀ (fuel iter : Nat) (x : Nat → ℚ), P x →
      P (iterLoop opt rng n nskip A b lo hi findex fuel iter order x).2 := by
  intro fuel
  induction fuel with
  | zero => intro iter x hP; exact hP
  | succ f ih =>
    intro iter x hP
    simp only [iterLoop]
    have hcond : ¬ (opt.mRandomizeConstraintOrder = true ∧ iter % 8 = 0) := by
      simp [hR]
    rw [if_neg hcond]
    cases hsx : (sweepFrom opt n nskip A b lo hi findex order
        (x, true)).2
    · rw [if_neg (show ¬ ((false : Bool) = true) by simp)]
      exact ih (iter + 1) _ (hstep x hP)
    · rw [if_pos (show (true : Bool) = true from rfl)]
      exact hstep x hP

end IterLoopLemmas

theorem firstPass_def (opt : PgsOption) (n nskip : Nat)
    (A b lo hi : Nat → ℚ) (findex : Nat → Int) (x0 : Nat → ℚ) :
    firstPass opt n nskip A b lo hi findex x0
      = firstPassAux opt n nskip A b lo hi findex x0 n := rfl

theorem solve_flag_path (opt : PgsOption) (rng : Nat → Nat → Nat)
    (n nub : Nat) (io : PgsIn) (h : ¬ n ≤ nub)
    (hflag : (firstPass opt n (dPAD n) io.A io.b io.lo io.hi io.findex
      io.x).possibleToTerminate = true) :
    PgsBoxedLcpSolver.solve opt rng n nub io =
      { A := io.A
        x := (firstPass opt n (dPAD n) io.A io.b io.lo io.hi io.findex
          io.x).x
        b := io.b
        lo := io.lo, hi := io.hi, findex := io.findex
        order := (firstPass opt n (dPAD n) io.A io.b io.lo io.hi io.findex
          io.x).order } := by
  simp only [PgsBoxedLcpSolver.solve]
  rw [if_neg h, if_pos hflag]

theorem solve_iter_path (opt : PgsOption) (rng : Nat → Nat → Nat)
    (n nub : Nat) (io : PgsIn) (h : ¬ n ≤ nub)
    (hflag : (firstPass opt n (dPAD n) io.A io.b io.lo io.hi io.findex
      io.x).possibleToTerminate = false) :
    PgsBoxedLcpSolver.solve opt rng n nub io =
      { A := (normalizeAll n (dPAD n)
          (firstPass opt n (dPAD n) io.A io.b io.lo io.hi io.findex
            io.x).order io.A io.b).1
        x := (iterLoop opt rng n (dPAD n)
          (normalizeAll n (dPAD n)
            (firstPass opt n (dPAD n) io.A io.b io.lo io.hi io.findex
              io.x).order io.A io.b).1
          (normalizeAll n (dPAD n)
            (firstPass opt n (dPAD n) io.A io.b io.lo io.hi io.findex
              io.x).order io.A io.b).2
          io.lo io.hi io.findex (opt.mMaxIteration - 1) 1
          (firstPass opt n (dPAD n) io.A io.b io.lo io.hi io.findex
            io.x).order
          (firstPass opt n (dPAD n) io.A io.b io.lo io.hi io.findex
            io.x).x).2
        b := (normalizeAll n (dPAD n)
          (firstPass opt n (dPAD n) io.A io.b io.lo io.hi io.findex
            io.x).order io.A io.b).2
        lo := io.lo, hi := io.hi, findex := io.findex
        order := (iterLoop opt rng n (dPAD n)
          (normalizeAll n (dPAD n)
            (firstPass opt n (dPAD n) io.A io.b io.lo io.hi io.findex
              io.x).order io.A io.b).1
          (normalizeAll n (dPAD n)
            (firstPass opt n (dPAD n) io.A io.b io.lo io.hi io.findex
              io.x).order io.A io.b).2
          io.lo io.hi io.findex (opt.mMaxIteration - 1) 1
          (firstPass opt n (dPAD n) io.A io.b io.lo io.hi io.findex
            io.x).order
          (firstPass opt n (dPAD n) io.A io.b io.lo io.hi io.findex
            io.x).x).1 } := by
  simp only [PgsBoxedLcpSolver.solve]
  rw [if_neg h, if_neg (by simp [hflag])]

theorem firstPass_order_mem (opt : PgsOption) (n nskip : Nat)
    (A b lo hi : Nat → ℚ) (findex : Nat → Int) (x0 : Nat → ℚ) (i : Nat) :
    i ∈ (firstPass opt n nskip A b lo hi findex x0).order ↔
      i < n ∧ ¬ A (nskip * i + i) < opt.mEpsilonForDivision := by
  rw [firstPass_def, firstPassAux_order]
  simp [List.mem_filter]

theorem firstPass_order_sorted (opt : PgsOption) (n nskip : Nat)
    (A b lo hi : Nat → ℚ) (findex : Nat → Int) (x0 : Nat → ℚ) :
    List.Pairwise (· < ·)
      (firstPass opt n nskip A b lo hi findex x0).order := by
  rw [firstPass_def, firstPassAux_order]
  exact (List.pairwise_lt_range n).filter _

/-- C4: in the pointer-based solve with nub below n, every row whose
diagonal is below epsilonForDivision is set to zero and kept out of the
sweep order on every path, so no later sweep updates it; and on the S6
instance A = [[0,0],[0,2]], b = [7,4] with wide bounds the solver returns
x = [0, 2] with sweep order [1]. -/
theorem solve_degenerate_row_excluded :
    (∀ (opt : PgsOption) (rng : Nat → Nat → Nat) (n nub : Nat)
      (io : PgsIn), nub < n → ∀ i < n,
      io.A (dPAD n * i + i) < opt.mEpsilonForDivision →
        (PgsBoxedLcpSolver.solve opt rng n nub io).x i = 0 ∧
        i ∉ (PgsBoxedLcpSolver.solve opt rng n nub io).order) ∧
    ((PgsBoxedLcpSolver.solve optDefault rng0 2 0 ioS6).x 0 = 0 ∧
     (PgsBoxedLcpSolver.solve optDefault rng0 2 0 ioS6).x 1 = 2 ∧
     (PgsBoxedLcpSolver.solve optDefault rng0 2 0 ioS6).order = [1]) := by
  constructor
  · intro opt rng n nub io hnub i hin hdeg
    have h : ¬ n ≤ nub := by omega
    have hnm : i ∉ (firstPass opt n (dPAD n) io.A io.b io.lo io.hi
        io.findex io.x).order := by
      rw [firstPass_order_mem]
      intro hc
      exact hc.2 hdeg
    by_cases hflag : (firstPass opt n (dPAD n) io.A io.b io.lo io.hi
        io.findex io.x).possibleToTerminate = true
    · rw [solve_flag_path opt rng n nub io h hflag]
      refine ⟨?_, hnm⟩
      rw [firstPass_def]
      exact firstPassAux_deg_zero opt n (dPAD n) io.A io.b io.lo io.hi
        io.findex io.x n i hin hdeg
    · have hflag' : (firstPass opt n (dPAD n) io.A io.b io.lo io.hi
          io.findex io.x).possibleToTerminate = false :=
        Bool.eq_false_iff.mpr hflag
      rw [solve_iter_path opt rng n nub io h hflag']
      constructor
      · refine iterLoop_x_invariant opt rng n (dPAD n) _ _ io.lo io.hi
          io.findex (fun x => x i = 0)
          (firstPass opt n (dPAD n) io.A io.b io.lo io.hi io.findex
            io.x).order ?_ _ 1 _ _ (fun a => Iff.rfl) ?_
        · intro ord hmemiff x hPx
          rw [sweepFrom_x_notmem opt n (dPAD n) _ _ io.lo io.hi io.findex
            ord _ i (fun hmem => hnm ((hmemiff i).mp hmem))]
          exact hPx
        · rw [firstPass_def]
          exact firstPassAux_deg_zero opt n (dPAD n) io.A io.b io.lo io.hi
            io.findex io.x n i hin hdeg
      · intro hmem
        rw [iterLoop_order_mem] at hmem
        exact hnm hmem
  · exact of_decide_eq_true (by with_unfolding_all rfl)

/-- Witness for the C4 theorem: row 0 of the S6 instance has a degenerate
diagonal, ends at zero and is excluded from the sweep order. -/
theorem solve_degenerate_row_excluded_witness :
    (PgsBoxedLcpSolver.solve optDefault rng0 2 0 ioS6).x 0 = 0 ∧
    0 ∉ (PgsBoxedLcpSolver.solve optDefault rng0 2 0 ioS6).order :=
  solve_degenerate_row_excluded.1 optDefault rng0 2 0 ioS6 (by decide) 0
    (by decide) (of_decide_eq_true (by with_unfolding_all rfl))

/-- C6 counterexample: on the degenerate 1 x 1 instance with box [1, 2]
the solver returns x = [0], outside the box, because degenerate rows are
zeroed without consulting lo and hi. -/
theorem solve_box_containment_counterexample :
    (PgsBoxedLcpSolver.solve optDefault rng0 1 0 ioDegBox).x 0 = 0 ∧
    ioDegBox.findex 0 < 0 ∧
    ¬ (ioDegBox.lo 0 ≤
        (PgsBoxedLcpSolver.solve optDefault rng0 1 0 ioDegBox).x 0) :=
  of_decide_eq_true (by with_unfolding_all rfl)

/-- C6 amended: after the pointer-based solve with nub below n, a row with
findex below 0 and a well-formed box lies within [lo, hi] whenever its
diagonal is not degenerate (so it belongs to the sweep order); a row
excluded from the sweep order for a degenerate diagonal is set to 0
instead, which lies in the box only when the box contains 0. -/
theorem solve_box_containment (opt : PgsOption) (rng : Nat → Nat → Nat)
    (n nub : Nat) (io : PgsIn) (hnub : nub < n) :
    ∀ i < n, io.findex i < 0 → io.lo i ≤ io.hi i →
      (¬ io.A (dPAD n * i + i) < opt.mEpsilonForDivision →
        io.lo i ≤ (PgsBoxedLcpSolver.solve opt rng n nub io).x i ∧
        (PgsBoxedLcpSolver.solve opt rng n nub io).x i ≤ io.hi i) ∧
      (io.A (dPAD n * i + i) < opt.mEpsilonForDivision →
        (PgsBoxedLcpSolver.solve opt rng n nub io).x i = 0) := by
  intro i hin hf hlh
  have h : ¬ n ≤ nub := by omega
  by_cases hflag : (firstPass opt n (dPAD n) io.A io.b io.lo io.hi
      io.findex io.x).possibleToTerminate = true
  · rw [solve_flag_path opt rng n nub io h hflag]
    constructor
    · intro hdeg
      rw [firstPass_def]
      exact firstPassAux_box opt n (dPAD n) io.A io.b io.lo io.hi
        io.findex io.x n i hin hdeg hf hlh
    · intro hdeg
      rw [firstPass_def]
      exact firstPassAux_deg_zero opt n (dPAD n) io.A io.b io.lo io.hi
        io.findex io.x n i hin hdeg
  · have hflag' : (firstPass opt n (dPAD n) io.A io.b io.lo io.hi
        io.findex io.x).possibleToTerminate = false :=
      Bool.eq_false_iff.mpr hflag
    rw [solve_iter_path opt rng n nub io h hflag']
    constructor
    · intro hdeg
      have hmem : i ∈ (firstPass opt n (dPAD n) io.A io.b io.lo io.hi
          io.findex io.x).order :=
        (firstPass_order_mem opt n (dPAD n) io.A io.b io.lo io.hi
          io.findex io.x i).mpr ⟨hin, hdeg⟩
      refine iterLoop_x_invariant opt rng n (dPAD n) _ _ io.lo io.hi
        io.findex (fun x => io.lo i ≤ x i ∧ x i ≤ io.hi i)
        (firstPass opt n (dPAD n) io.A io.b io.lo io.hi io.findex
          io.x).order ?_ _ 1 _ _ (fun a => Iff.rfl) ?_
      · intro ord hmemiff x _
        exact sweepFrom_box opt n (dPAD n) _ _ io.lo io.hi io.findex ord
          _ i ((hmemiff i).mpr hmem) hf hlh
      · rw [firstPass_def]
        exact firstPassAux_box opt n (dPAD n) io.A io.b io.lo io.hi
          io.findex io.x n i hin hdeg hf hlh
    · intro hdeg
      have hnm : i ∉ (firstPass opt n (dPAD n) io.A io.b io.lo io.hi
          io.findex io.x).order := by
        rw [firstPass_order_mem]
        intro hc
        exact hc.2 hdeg
      refine iterLoop_x_invariant opt rng n (dPAD n) _ _ io.lo io.hi
        io.findex (fun x => x i = 0)
        (firstPass opt n (dPAD n) io.A io.b io.lo io.hi io.findex
          io.x).order ?_ _ 1 _ _ (fun a => Iff.rfl) ?_
      · intro ord hmemiff x hPx
        rw [sweepFrom_x_notmem opt n (dPAD n) _ _ io.lo io.hi io.findex
          ord _ i (fun hmem => hnm ((hmemiff i).mp hmem))]
        exact hPx
      · rw [firstPass_def]
        exact firstPassAux_deg_zero opt n (dPAD n) io.A io.b io.lo io.hi
          io.findex io.x n i hin hdeg

/-- Witness for the amended C6 theorem at the 1 x 1 instance A = [[2]],
b = [10], box [0, 1] (the solver clips to the upper bound 1). -/
theorem solve_box_containment_witness :
    ioBox1.lo 0 ≤ (PgsBoxedLcpSolver.solve optDefault rng0 1 0 ioBox1).x 0 ∧
    (PgsBoxedLcpSolver.solve optDefault rng0 1 0 ioBox1).x 0
      ≤ ioBox1.hi 0 :=
  (solve_box_containment optDefault rng0 1 0 ioBox1 (by decide) 0
      (by decide) (by decide)
      (of_decide_eq_true (by with_unfolding_all rfl))).1
    (of_decide_eq_true (by with_unfolding_all rfl))

/-- C3 counterexample: on ioFricRev the friction row 0 references the
later row 1; the solver terminates after the first sweep with
x = [1, 2 - 1e-6], and |x[0]| = 1 exceeds hi[0] * |x[1]| = 1 - 5e-7, so
the claimed bound with the final value of the referenced row fails. -/
theorem solve_friction_cone_counterexample :
    ioFricRev.findex 0 = 1 ∧
    (0 : ℚ) ≤ ioFricRev.hi 0 ∧ (0 : ℚ) ≤ ioFricRev.hi 1 ∧
    ¬ (|(PgsBoxedLcpSolver.solve optDefault rng0 2 0 ioFricRev).x 0| ≤
        ioFricRev.hi 0 *
          |(PgsBoxedLcpSolver.solve optDefault rng0 2 0 ioFricRev).x 1|) :=
  of_decide_eq_true (by with_unfolding_all rfl)

/-- C3 amended: after the pointer-based solve with nub below n and
hi nonnegative, the friction-cone bound with the final value of the
referenced row holds for every friction row whose referenced normal row
precedes it (findex i below i), provided the sweep order is not
randomized; when the referenced row comes after the friction row the
bound can fail by the final-sweep drift of the referenced row, as the
counterexample shows.  lo plays no role for friction rows. -/
theorem solve_friction_cone_bound (opt : PgsOption)
    (rng : Nat → Nat → Nat) (n nub : Nat) (io : PgsIn) (hnub : nub < n)
    (hR : opt.mRandomizeConstraintOrder = false) (i : Nat) (hin : i < n)
    (hf : 0 ≤ io.findex i) (hk : (io.findex i).toNat < i)
    (hhi : 0 ≤ io.hi i) :
    |(PgsBoxedLcpSolver.solve opt rng n nub io).x i| ≤
      io.hi i * |(PgsBoxedLcpSolver.solve opt rng n nub io).x
        ((io.findex i).toNat)| := by
  have h : ¬ n ≤ nub := by omega
  by_cases hflag : (firstPass opt n (dPAD n) io.A io.b io.lo io.hi
      io.findex io.x).possibleToTerminate = true
  · rw [solve_flag_path opt rng n nub io h hflag]
    rw [firstPass_def]
    exact firstPassAux_fric opt n (dPAD n) io.A io.b io.lo io.hi
      io.findex io.x n i hin hf hk hhi
  · have hflag' : (firstPass opt n (dPAD n) io.A io.b io.lo io.hi
        io.findex io.x).possibleToTerminate = false :=
      Bool.eq_false_iff.mpr hflag
    rw [solve_iter_path opt rng n nub io h hflag']
    by_cases hdeg : io.A (dPAD n * i + i) < opt.mEpsilonForDivision
    · have hnm : i ∉ (firstPass opt n (dPAD n) io.A io.b io.lo io.hi
          io.findex io.x).order := by
        rw [firstPass_order_mem]
        intro hc
        exact hc.2 hdeg
      have hzero := iterLoop_x_invariant opt rng n (dPAD n)
        (normalizeAll n (dPAD n)
          (firstPass opt n (dPAD n) io.A io.b io.lo io.hi io.findex
            io.x).order io.A io.b).1
        (normalizeAll n (dPAD n)
          (firstPass opt n (dPAD n) io.A io.b io.lo io.hi io.findex
            io.x).order io.A io.b).2
        io.lo io.hi io.findex (fun x => x i = 0)
        (firstPass opt n (dPAD n) io.A io.b io.lo io.hi io.findex
          io.x).order
        (fun ord hmemiff x hPx => by
          dsimp only
          rw [sweepFrom_x_notmem opt n (dPAD n) _ _ io.lo io.hi io.findex
            ord _ i (fun hmem => hnm ((hmemiff i).mp hmem))]
          exact hPx)
        (opt.mMaxIteration - 1) 1
        (firstPass opt n (dPAD n) io.A io.b io.lo io.hi io.findex
          io.x).order
        (firstPass opt n (dPAD n) io.A io.b io.lo io.hi io.findex io.x).x
        (fun a => Iff.rfl)
        (by
          rw [firstPass_def]
          exact firstPassAux_deg_zero opt n (dPAD n) io.A io.b io.lo
            io.hi io.findex io.x n i hin hdeg)
      dsimp only at hzero ⊢
      rw [hzero, abs_zero]
      exact mul_nonneg hhi (abs_nonneg _)
    · have hmem : i ∈ (firstPass opt n (dPAD n) io.A io.b io.lo io.hi
          io.findex io.x).order :=
        (firstPass_order_mem opt n (dPAD n) io.A io.b io.lo io.hi
          io.findex io.x i).mpr ⟨hin, hdeg⟩
      exact iterLoop_norand_x_invariant opt rng n (dPAD n) _ _ io.lo
        io.hi io.findex hR
        (fun x => |x i| ≤ io.hi i * |x ((io.findex i).toNat)|)
        (firstPass opt n (dPAD n) io.A io.b io.lo io.hi io.findex
          io.x).order
        (fun x _ => sweepFrom_fric_sorted opt n (dPAD n) _ _ io.lo io.hi
          io.findex
          (firstPass opt n (dPAD n) io.A io.b io.lo io.hi io.findex
            io.x).order
          (firstPass_order_sorted opt n (dPAD n) io.A io.b io.lo io.hi
            io.findex io.x) _ i hmem hf hk hhi)
        (opt.mMaxIteration - 1) 1
        (firstPass opt n (dPAD n) io.A io.b io.lo io.hi io.findex io.x).x
        (by
          rw [firstPass_def]
          exact firstPassAux_fric opt n (dPAD n) io.A io.b io.lo io.hi
            io.findex io.x n i hin hf hk hhi)

/-- Witness for the amended C3 theorem at ioFricFwd: the friction row 1
references the earlier normal row 0 and ends within the cone. -/
theorem solve_friction_cone_bound_witness :
    |(PgsBoxedLcpSolver.solve optNoRand rng0 2 0 ioFricFwd).x 1| ≤
      ioFricFwd.hi 1 * |(PgsBoxedLcpSolver.solve optNoRand rng0 2 0
        ioFricFwd).x ((ioFricFwd.findex 1).toNat)| :=
  solve_friction_cone_bound optNoRand rng0 2 0 ioFricFwd (by decide)
    (by decide) 1 (by decide) (by decide) (by decide)
    (of_decide_eq_true (by with_unfolding_all rfl))

/-- C8 counterexample: on the degenerate 1 x 1 instance with incoming
x = [7] the first sweep changes no updated row (there are none), the
solver returns after that sweep, yet the returned x differs from the
input by 7, far beyond deltaXThreshold: degenerate rows are zeroed
unconditionally. -/
theorem solve_single_sweep_counterexample :
    (firstPass optDefault 1 (dPAD 1) ioDeg7.A ioDeg7.b ioDeg7.lo
      ioDeg7.hi ioDeg7.findex ioDeg7.x).possibleToTerminate = true ∧
    (PgsBoxedLcpSolver.solve optDefault rng0 1 0 ioDeg7).x 0 = 0 ∧
    optDefault.mDeltaXThreshold <
      |(PgsBoxedLcpSolver.solve optDefault rng0 1 0 ioDeg7).x 0
        - ioDeg7.x 0| :=
  of_decide_eq_true (by with_unfolding_all rfl)

/-- C8 amended: with nub below n, when every row updated during the first
sweep moves by at most deltaXThreshold the solver returns immediately
after that single sweep (A and b are not even normalized); every row of
the sweep order then differs from its incoming value by at most
deltaXThreshold, while rows with a degenerate diagonal are set to 0
regardless of their incoming value. -/
theorem solve_single_sweep_convergence (opt : PgsOption)
    (rng : Nat → Nat → Nat) (n nub : Nat) (io : PgsIn) (hnub : nub < n)
    (hflag : (firstPass opt n (dPAD n) io.A io.b io.lo io.hi io.findex
      io.x).possibleToTerminate = true) :
    (PgsBoxedLcpSolver.solve opt rng n nub io).x
        = (firstPass opt n (dPAD n) io.A io.b io.lo io.hi io.findex
          io.x).x ∧
    (PgsBoxedLcpSolver.solve opt rng n nub io).A = io.A ∧
    (PgsBoxedLcpSolver.solve opt rng n nub io).b = io.b ∧
    (PgsBoxedLcpSolver.solve opt rng n nub io).order
        = (firstPass opt n (dPAD n) io.A io.b io.lo io.hi io.findex
          io.x).order ∧
    ∀ i < n,
      (¬ io.A (dPAD n * i + i) < opt.mEpsilonForDivision →
        |(PgsBoxedLcpSolver.solve opt rng n nub io).x i - io.x i|
          ≤ opt.mDeltaXThreshold) ∧
      (io.A (dPAD n * i + i) < opt.mEpsilonForDivision →
        (PgsBoxedLcpSolver.solve opt rng n nub io).x i = 0) := by
  have h : ¬ n ≤ nub := by omega
  rw [solve_flag_path opt rng n nub io h hflag]
  refine ⟨rfl, rfl, rfl, rfl, ?_⟩
  intro i hin
  have hflagA : (firstPassAux opt n (dPAD n) io.A io.b io.lo io.hi
      io.findex io.x n).possibleToTerminate = true := by
    rw [← firstPass_def]
    exact hflag
  constructor
  · intro hdeg
    dsimp only
    rw [firstPass_def]
    exact firstPassAux_flag_bound opt n (dPAD n) io.A io.b io.lo io.hi
      io.findex io.x n hflagA i hin hdeg
  · intro hdeg
    dsimp only
    rw [firstPass_def]
    exact firstPassAux_deg_zero opt n (dPAD n) io.A io.b io.lo io.hi
      io.findex io.x n i hin hdeg

/-- Witness for the amended C8 theorem at the converged 1 x 1 instance
A = [[2]], b = [4], incoming x = [2]. -/
theorem solve_single_sweep_convergence_witness :
    |(PgsBoxedLcpSolver.solve optDefault rng0 1 0 ioConv1).x 0
      - ioConv1.x 0| ≤ optDefault.mDeltaXThreshold :=
  ((solve_single_sweep_convergence optDefault rng0 1 0 ioConv1
      (by decide) (of_decide_eq_true (by with_unfolding_all rfl))).2.2.2.2
    0 (by decide)).1 (of_decide_eq_true (by with_unfolding_all rfl))

theorem offsetOf_succ (cs : List ConstraintM) (p : Nat)
    (hp : p < cs.length) :
    offsetOf cs (p + 1) = offsetOf cs p + dimOf cs p := by
  induction p generalizing cs with
  | zero =>
    cases cs with
    | nil => simp at hp
    | cons c t => simp [offsetOf, dimOf]
  | succ q ih =>
    cases cs with
    | nil => simp at hp
    | cons c t =>
      have ht : q < t.length := by
        simp at hp
        omega
      have := ih t ht
      simp only [offsetOf, dimOf, List.take_succ_cons, List.map_cons,
        List.sum_cons, List.getD_cons_succ] at this ⊢
      omega

theorem offsetOf_le_succ (cs : List ConstraintM) (q : Nat) :
    offsetOf cs q ≤ offsetOf cs (q + 1) := by
  unfold offsetOf
  rw [List.take_succ]
  simp

theorem offsetOf_mono (cs : List ConstraintM) (p q : Nat) (h : p ≤ q) :
    offsetOf cs p ≤ offsetOf cs q := by
  induction q, h using Nat.le_induction with
  | base => exact le_refl _
  | succ q hq ih => exact le_trans ih (offsetOf_le_succ cs q)

theorem probeFold_trace (cs : List ConstraintM) (nskip : Nat)
    (vel : Nat → Nat → Nat → Bool → Nat → ℚ) (i : Nat) :
    ∀ (l : List Nat) (s : AsmState),
      (l.foldl (probeStep cs nskip vel i) s).trace
        = s.trace ++ l.map (GEvent.unitImpulse i) := by
  intro l
  induction l with
  | nil => intro s; simp
  | cons j rest ih =>
    intro s
    rw [List.foldl_cons, ih]
    simp [probeStep, List.append_assoc]

theorem probeFold_x (cs : List ConstraintM) (nskip : Nat)
    (vel : Nat → Nat → Nat → Bool → Nat → ℚ) (i : Nat) :
    ∀ (l : List Nat) (s : AsmState),
      (l.foldl (probeStep cs nskip vel i) s).x = s.x := by
  intro l
  induction l with
  | nil => intro s; rfl
  | cons j rest ih =>
    intro s
    rw [List.foldl_cons, ih]
    rfl

theorem asmConstraint_trace (cs : List ConstraintM) (nskip : Nat)
    (vel : Nat → Nat → Nat → Bool → Nat → ℚ) (s : AsmState) (i : Nat) :
    (asmConstraint cs nskip vel s i).trace
      = s.trace ++ ([GEvent.getInfo i, GEvent.excite i]
          ++ (List.range (dimOf cs i)).map (GEvent.unitImpulse i)
          ++ [GEvent.unexcite i]) := by
  show ((List.range (cs.getD i cDefault).dim).foldl
      (probeStep cs nskip vel i) _).trace ++ [GEvent.unexcite i] = _
  rw [probeFold_trace]
  show (s.trace ++ [GEvent.getInfo i, GEvent.excite i])
      ++ (List.range (dimOf cs i)).map (GEvent.unitImpulse i)
      ++ [GEvent.unexcite i] = _
  simp [List.append_assoc]

theorem asmConstraint_x (cs : List ConstraintM) (nskip : Nat)
    (vel : Nat → Nat → Nat → Bool → Nat → ℚ) (s : AsmState) (i : Nat) :
    (asmConstraint cs nskip vel s i).x
      = writeSlice s.x (offsetOf cs i) (dimOf cs i)
          (cs.getD i cDefault).xFill := by
  show ((List.range (cs.getD i cDefault).dim).foldl
      (probeStep cs nskip vel i) _).x = _
  rw [probeFold_x]
  rfl

theorem asmFold_succ (cs : List ConstraintM) (nskip : Nat)
    (vel : Nat → Nat → Nat → Bool → Nat → ℚ) (s0 : AsmState) (m : Nat) :
    (List.range (m + 1)).foldl (asmConstraint cs nskip vel) s0
      = asmConstraint cs nskip vel
          ((List.range m).foldl (asmConstraint cs nskip vel) s0) m := by
  rw [List.range_succ, List.foldl_append]
  rfl

theorem asmFold_trace (cs : List ConstraintM) (nskip : Nat)
    (vel : Nat → Nat → Nat → Bool → Nat → ℚ) (s0 : AsmState) (m : Nat) :
    ((List.range m).foldl (asmConstraint cs nskip vel) s0).trace
      = s0.trace ++ (List.range m).flatMap
          (fun p => [GEvent.getInfo p, GEvent.excite p]
            ++ (List.range (dimOf cs p)).map (GEvent.unitImpulse p)
            ++ [GEvent.unexcite p]) := by
  induction m with
  | zero => simp
  | succ k ih =>
    rw [asmFold_succ, asmConstraint_trace, ih, List.range_succ,
      List.flatMap_append]
    simp [List.append_assoc]

theorem asmFold_x (cs : List ConstraintM) (nskip : Nat)
    (vel : Nat → Nat → Nat → Bool → Nat → ℚ) (s0 : AsmState) (m : Nat)
    (hm : m ≤ cs.length) (p : Nat) (hp : p < m) (j : Nat)
    (hj : j < dimOf cs p) :
    ((List.range m).foldl (asmConstraint cs nskip vel) s0).x
        (offsetOf cs p + j)
      = (cs.getD p cDefault).xFill j := by
  induction m with
  | zero => omega
  | succ k ih =>
    rw [asmFold_succ, asmConstraint_x]
    rcases Nat.lt_or_ge p k with hpk | hpk
    · have hlt : offsetOf cs p + j < offsetOf cs k := by
        have h1 : offsetOf cs (p + 1) = offsetOf cs p + dimOf cs p :=
          offsetOf_succ cs p (by omega)
        have h2 : offsetOf cs (p + 1) ≤ offsetOf cs k :=
          offsetOf_mono cs (p + 1) k (by omega)
        omega
      unfold writeSlice
      rw [if_neg (by omega)]
      exact ih (by omega) (by omega)
    · have hpeq : p = k := by omega
      subst hpeq
      unfold writeSlice
      rw [if_pos (by omega)]
      congr 1
      omega

theorem applyFold_trace (l : List Nat) :
    ∀ (t0 : List GEvent),
      l.foldl (fun t i => t ++ [GEvent.applyImpulse i, GEvent.excite i]) t0
        = t0 ++ l.flatMap
            (fun i => [GEvent.applyImpulse i, GEvent.excite i]) := by
  induction l with
  | nil => intro t0; simp
  | cons i rest ih =>
    intro t0
    rw [List.foldl_cons, ih]
    simp [List.append_assoc]

theorem flatMap_nil_of_notmem (f : Nat → List GEvent) :
    ∀ (l : List Nat), (∀ p ∈ l, f p = []) → l.flatMap f = [] := by
  intro l
  induction l with
  | nil => intro _; rfl
  | cons a rest ih =>
    intro h
    rw [List.flatMap_cons, h a (List.mem_cons_self a rest),
      ih (fun p hp => h p (List.mem_cons_of_mem a hp))]
    rfl

theorem flatMap_single (g : Nat → List GEvent) (L i : Nat) (hi : i < L) :
    (List.range L).flatMap (fun p => if p = i then g p else [])
      = g i := by
  induction L with
  | zero => omega
  | succ K ih =>
    rw [List.range_succ, List.flatMap_append]
    rcases Nat.lt_or_ge i K with hiK | hiK
    · rw [ih hiK]
      have : K ≠ i := by omega
      simp [this]
    · have hieq : i = K := by omega
      subst hieq
      rw [flatMap_nil_of_notmem _ (List.range i)
        (fun p hp => by
          rw [if_neg]
          intro hc
          rw [List.mem_range] at hp
          omega)]
      simp

theorem assemble_trace (cs : List ConstraintM) (nskip : Nat)
    (vel : Nat → Nat → Nat → Bool → Nat → ℚ) (s0 : AsmState) :
    (assemble cs nskip vel s0).trace
      = s0.trace ++ (List.range cs.length).flatMap
          (fun p => [GEvent.getInfo p, GEvent.excite p]
            ++ (List.range (dimOf cs p)).map (GEvent.unitImpulse p)
            ++ [GEvent.unexcite p]) :=
  asmFold_trace cs nskip vel s0 cs.length

theorem segment_filter (cs : List ConstraintM) (i p : Nat) :
    ([GEvent.getInfo p, GEvent.excite p]
      ++ (List.range (dimOf cs p)).map (GEvent.unitImpulse p)
      ++ [GEvent.unexcite p]).filter (concernsExcitation i)
    = if p = i then
        [GEvent.excite i]
          ++ (List.range (dimOf cs i)).map (GEvent.unitImpulse i)
          ++ [GEvent.unexcite i]
      else [] := by
  by_cases hp : p = i
  · subst hp
    rw [if_pos rfl, List.filter_append, List.filter_append]
    have h2 : ((List.range (dimOf cs p)).map
        (GEvent.unitImpulse p)).filter (concernsExcitation p)
        = (List.range (dimOf cs p)).map (GEvent.unitImpulse p) :=
      List.filter_eq_self.mpr (by
        intro e he
        rw [List.mem_map] at he
        obtain ⟨j, _, rfl⟩ := he
        simp [concernsExcitation])
    rw [h2]
    simp [concernsExcitation, List.append_assoc]
  · rw [if_neg hp, List.filter_append, List.filter_append]
    have h2 : ((List.range (dimOf cs p)).map
        (GEvent.unitImpulse p)).filter (concernsExcitation i) = [] := by
      rw [List.filter_eq_nil_iff]
      intro e he
      rw [List.mem_map] at he
      obtain ⟨j, _, rfl⟩ := he
      simp [concernsExcitation, hp]
    rw [h2]
    simp [concernsExcitation, hp]

theorem apply_segment_filter (i p : Nat) :
    ([GEvent.applyImpulse p, GEvent.excite p]).filter
        (concernsExcitation i)
      = if p = i then [GEvent.applyImpulse i, GEvent.excite i]
        else [] := by
  by_cases hp : p = i
  · subst hp
    simp [concernsExcitation]
  · simp [concernsExcitation, hp]

theorem excitedAfter_filter (i : Nat) :
    ∀ (t : List GEvent) (s : Bool),
      excitedAfter i t s
        = excitedAfter i (t.filter (concernsExcitation i)) s := by
  intro t
  induction t with
  | nil => intro s; rfl
  | cons e rest ih =>
    intro s
    cases he : concernsExcitation i e
    · have hfilt : (e :: rest).filter (concernsExcitation i)
          = rest.filter (concernsExcitation i) := by
        simp [List.filter_cons, he]
      rw [hfilt]
      have hstep : excitedAfter i (e :: rest) s
          = excitedAfter i rest s := by
        cases e <;> simp_all [excitedAfter, concernsExcitation]
      rw [hstep]
      exact ih s
    · have hfilt : (e :: rest).filter (concernsExcitation i)
          = e :: rest.filter (concernsExcitation i) := by
        simp [List.filter_cons, he]
      rw [hfilt]
      show excitedAfter i rest _ = excitedAfter i (rest.filter _) _
      exact ih _

theorem excitedAfter_append_excite (i : Nat) (t : List GEvent)
    (s : Bool) :
    excitedAfter i (t ++ [GEvent.excite i]) s = true := by
  unfold excitedAfter
  rw [List.foldl_append]
  simp

theorem group_trace_filter
    (solver : Nat → (Nat → ℚ) → (Nat → ℚ) → (Nat → ℚ) → (Nat → ℚ) →
      (Nat → ℚ) → (Nat → Int) → (Nat → ℚ))
    (vel : Nat → Nat → Nat → Bool → Nat → ℚ) (cs : List ConstraintM)
    (A0 x0 b0 w0 lo0 hi0 : Nat → ℚ) (findex0 : Nat → Int)
    (hn : ¬ totalDim cs = 0) (i : Nat) (hi : i < cs.length) :
    ((solveConstrainedGroup solver vel cs A0 x0 b0 w0 lo0 hi0
        findex0).trace).filter (concernsExcitation i)
      = [GEvent.excite i]
        ++ (List.range (dimOf cs i)).map (GEvent.unitImpulse i)
        ++ [GEvent.unexcite i]
        ++ [GEvent.applyImpulse i, GEvent.excite i] := by
  simp only [solveConstrainedGroup]
  rw [if_neg hn]
  dsimp only
  rw [assemble_trace, applyFold_trace]
  dsimp only
  rw [List.nil_append, List.nil_append, List.filter_append,
    List.filter_append, List.filter_flatMap, List.filter_flatMap]
  simp only [segment_filter, apply_segment_filter]
  rw [flatMap_single _ cs.length i hi, flatMap_single _ cs.length i hi]
  have hsc : List.filter (concernsExcitation i) [GEvent.solveCall]
      = [] := rfl
  rw [hsc]
  simp [List.append_assoc]

/-- C9: for every group with positive total dimension,
solveConstrainedGroup calls excite and unexcite on each constraint
exactly once each during assembly, in that order, bracketing that
constraint's unit-impulse probes; after the solve it calls applyImpulse
then excite once more with no matching unexcite, so every constraint ends
in the excited state (from any starting activation state). -/
theorem solveConstrainedGroup_excitation_balance
    (solver : Nat → (Nat → ℚ) → (Nat → ℚ) → (Nat → ℚ) → (Nat → ℚ) →
      (Nat → ℚ) → (Nat → Int) → (Nat → ℚ))
    (vel : Nat → Nat → Nat → Bool → Nat → ℚ) (cs : List ConstraintM)
    (A0 x0 b0 w0 lo0 hi0 : Nat → ℚ) (findex0 : Nat → Int)
    (hn : ¬ totalDim cs = 0) (i : Nat) (hi : i < cs.length) :
    ((solveConstrainedGroup solver vel cs A0 x0 b0 w0 lo0 hi0
        findex0).trace).filter (concernsExcitation i)
      = [GEvent.excite i]
        ++ (List.range (dimOf cs i)).map (GEvent.unitImpulse i)
        ++ [GEvent.unexcite i]
        ++ [GEvent.applyImpulse i, GEvent.excite i] ∧
    (solveConstrainedGroup solver vel cs A0 x0 b0 w0 lo0 hi0
        findex0).trace.count (GEvent.excite i) = 2 ∧
    (solveConstrainedGroup solver vel cs A0 x0 b0 w0 lo0 hi0
        findex0).trace.count (GEvent.unexcite i) = 1 ∧
    ∀ s0b : Bool,
      excitedAfter i (solveConstrainedGroup solver vel cs A0 x0 b0 w0
        lo0 hi0 findex0).trace s0b = true := by
  have hfilt := group_trace_filter solver vel cs A0 x0 b0 w0 lo0 hi0
    findex0 hn i hi
  refine ⟨hfilt, ?_, ?_, ?_⟩
  · have hcount : (solveConstrainedGroup solver vel cs A0 x0 b0 w0 lo0
        hi0 findex0).trace.count (GEvent.excite i)
        = ((solveConstrainedGroup solver vel cs A0 x0 b0 w0 lo0 hi0
            findex0).trace.filter (concernsExcitation i)).count
            (GEvent.excite i) :=
      (List.count_filter (by simp [concernsExcitation])).symm
    rw [hcount, hfilt]
    have hmap : ((List.range (dimOf cs i)).map
        (GEvent.unitImpulse i)).count (GEvent.excite i) = 0 :=
      List.count_eq_zero.mpr (by simp)
    simp [List.count_append, hmap]
  · have hcount : (solveConstrainedGroup solver vel cs A0 x0 b0 w0 lo0
        hi0 findex0).trace.count (GEvent.unexcite i)
        = ((solveConstrainedGroup solver vel cs A0 x0 b0 w0 lo0 hi0
            findex0).trace.filter (concernsExcitation i)).count
            (GEvent.unexcite i) :=
      (List.count_filter (by simp [concernsExcitation])).symm
    rw [hcount, hfilt]
    have hmap : ((List.range (dimOf cs i)).map
        (GEvent.unitImpulse i)).count (GEvent.unexcite i) = 0 :=
      List.count_eq_zero.mpr (by simp)
    simp [List.count_append, hmap]
  · intro s0b
    rw [excitedAfter_filter i _ s0b, hfilt]
    have hre : ∀ (m : List GEvent),
        m ++ [GEvent.applyImpulse i, GEvent.excite i]
          = (m ++ [GEvent.applyImpulse i]) ++ [GEvent.excite i] := by
      intro m
      simp
    rw [hre]
    exact excitedAfter_append_excite i _ s0b

/-- Witness for the C9 theorem on the single-constraint group: the
excite count is 2, the unexcite count is 1, and the constraint ends
excited. -/
theorem solveConstrainedGroup_excitation_balance_witness :
    groupRunFix.trace.count (GEvent.excite 0) = 2 ∧
    groupRunFix.trace.count (GEvent.unexcite 0) = 1 ∧
    excitedAfter 0 groupRunFix.trace false = true :=
  ⟨(solveConstrainedGroup_excitation_balance solverKeepsX velZero [cFix]
      (fun _ => 0) (fun _ => 0) (fun _ => 0) (fun _ => 0) (fun _ => 0)
      (fun _ => 0) (fun _ => -1) (by decide) 0 (by decide)).2.1,
   (solveConstrainedGroup_excitation_balance solverKeepsX velZero [cFix]
      (fun _ => 0) (fun _ => 0) (fun _ => 0) (fun _ => 0) (fun _ => 0)
      (fun _ => 0) (fun _ => -1) (by decide) 0 (by decide)).2.2.1,
   (solveConstrainedGroup_excitation_balance solverKeepsX velZero [cFix]
      (fun _ => 0) (fun _ => 0) (fun _ => 0) (fun _ => 0) (fun _ => 0)
      (fun _ => 0) (fun _ => -1) (by decide) 0 (by decide)).2.2.2 false⟩

/-- C2 counterexample: with a single constraint whose getInformation
writes 5 into its x slice, the x handed to the boxed solver holds 5, not
0, even though the backing memory started zeroed: solveConstrainedGroup
never zero-initializes x. -/
theorem xAtSolve_not_zeroed_counterexample :
    groupRunFix.xAtSolve 0 = 5 ∧ ¬ groupRunFix.xAtSolve 0 = 0 :=
  of_decide_eq_true (by with_unfolding_all rfl)

/-- C2 amended: for every group with positive total dimension, the
impulse vector x passed to the boxed LCP solver holds exactly the values
the constraints' getInformation callbacks wrote into their slices;
solveConstrainedGroup performs no zero-initialization of x. -/
theorem xAtSolve_eq_getInformation_fill
    (solver : Nat → (Nat → ℚ) → (Nat → ℚ) → (Nat → ℚ) → (Nat → ℚ) →
      (Nat → ℚ) → (Nat → Int) → (Nat → ℚ))
    (vel : Nat → Nat → Nat → Bool → Nat → ℚ) (cs : List ConstraintM)
    (A0 x0 b0 w0 lo0 hi0 : Nat → ℚ) (findex0 : Nat → Int)
    (hn : ¬ totalDim cs = 0) (i : Nat) (hi : i < cs.length) (j : Nat)
    (hj : j < dimOf cs i) :
    (solveConstrainedGroup solver vel cs A0 x0 b0 w0 lo0 hi0
        findex0).xAtSolve (offsetOf cs i + j)
      = (cs.getD i cDefault).xFill j := by
  simp only [solveConstrainedGroup]
  rw [if_neg hn]
  dsimp only
  exact asmFold_x cs (dPAD (totalDim cs)) vel _ cs.length (le_refl _)
    i hi j hj

/-- Witness for the amended C2 theorem on the single-constraint group:
the solver sees the 5 written by the constraint. -/
theorem xAtSolve_eq_getInformation_fill_witness :
    groupRunFix.xAtSolve (offsetOf [cFix] 0 + 0)
      = (([cFix] : List ConstraintM).getD 0 cDefault).xFill 0 :=
  xAtSolve_eq_getInformation_fill solverKeepsX velZero [cFix]
    (fun _ => 0) (fun _ => 0) (fun _ => 0) (fun _ => 0) (fun _ => 0)
    (fun _ => 0) (fun _ => -1) (by decide) 0 (by decide) 0 (by decide)

end DartLcp
